import Mathlib

/-!
Verification of the path_finder repository against its specification.

The development shallowly embeds the Python sources:
  * `src/astar.py`    — grid model, `line_of_sight`, the A*/Theta* search,
    `optimize_path`, `reverse_optimize_path`, `split_long_segments`,
    `multi_pass_optimize`;
  * `src/speed_limit_calculator.py` — `calculate_speed_limits`;
  * `src/path_processor.py` — `process_path`, `smooth_path`.

Cells are integer pairs, grids are lists of rows of integers (0 = free).
Python float arithmetic is modelled by exact real (or, where the values are
integer-valued rationals, exact integer) arithmetic; each place where this
matters carries a comment arguing exactness for the inputs used.
-/

/-- A grid cell `(x, y)`: `x` indexes the row (`grid[x]`), `y` the column. -/
abbrev Cell : Type := ℤ × ℤ

/-- An occupancy grid: a list of rows, cell value `0` = walkable. -/
abbrev Grid : Type := List (List ℤ)

/-- Value of `grid[x][y]` (callers only use it after a bounds check, matching
the Python code, which would raise on a genuinely bad index). -/
def gridVal (grid : Grid) (x y : ℤ) : ℤ :=
  (grid.getD x.toNat []).getD y.toNat 0

/-- The bounds test of `line_of_sight` (astar.py line 52):
`not (x < 0 or x >= len(grid) or y < 0 or y >= len(grid[0]))`. -/
def inGrid (grid : Grid) (x y : ℤ) : Bool :=
  decide (0 ≤ x) && decide (x < grid.length) &&
    decide (0 ≤ y) && decide (y < ((grid.headD []).length : ℤ))

/-- Loop body of `line_of_sight` (astar.py lines 50-70).  The Python loop is
`for i in range(n)`: the trip count is the value of `n` on entry, so the
`n -= 1` executed in the diagonal branch has no effect on the number of
iterations; the remaining trip count is the only loop state tracked here,
together with `x`, `y` and `error`. -/
def losGo (grid : Grid) (xInc yInc dx2 dy2 : ℤ) : ℕ → ℤ → ℤ → ℤ → Bool
  | 0, _, _, _ => true
  | k + 1, x, y, err =>
    if !(inGrid grid x y) then false
    else if gridVal grid x y ≠ 0 then false
    else if 0 < err then losGo grid xInc yInc dx2 dy2 k (x + xInc) y (err - dy2)
    else if err < 0 then losGo grid xInc yInc dx2 dy2 k x (y + yInc) (err + dx2)
    else losGo grid xInc yInc dx2 dy2 k (x + xInc) (y + yInc) (err - dy2 + dx2)

/-- `line_of_sight(grid, a, b)` from astar.py lines 25-72. -/
def line_of_sight (grid : Grid) (a b : Cell) : Bool :=
  let dx := |b.1 - a.1|
  let dy := |b.2 - a.2|
  let n := 1 + dx + dy
  let xInc : ℤ := if a.1 < b.1 then 1 else -1
  let yInc : ℤ := if a.2 < b.2 then 1 else -1
  losGo grid xInc yInc (2 * dx) (2 * dy) n.toNat a.1 a.2 (dx - dy)

/-- A 3×3 grid of free cells. -/
def freeGrid3 : Grid := [[0, 0, 0], [0, 0, 0], [0, 0, 0]]

/-- C2: the spec claims `line_of_sight` is symmetric.  On the all-free 3×3
grid it is not: the traversal from `(0,0)` to `(1,1)` makes diagonal steps but
still runs `1 + dx + dy = 3` iterations (the `n -= 1` cannot shorten a Python
`range` loop), so it overshoots the endpoint and also tests `(2,2)` — in
bounds and free, giving `True` — while the reverse traversal overshoots to
`(-1,-1)`, out of bounds, giving `False`. -/
theorem los_asymmetric_on_free_grid :
    line_of_sight freeGrid3 (0, 0) (1, 1) = true ∧
      line_of_sight freeGrid3 (1, 1) (0, 0) = false := by
  decide

/-- Squared Euclidean distance between two cells. -/
def sqDist (p q : Cell) : ℤ :=
  (q.1 - p.1) ^ 2 + (q.2 - p.2) ^ 2

/-- Truncation toward zero of the rational `num / den` (`den > 0` in all
uses): the effect of Python's `int(...)` on the float `num / den`. -/
def pyInt (num den : ℤ) : ℤ :=
  if 0 ≤ num then num / den else -((-num) / den)

/-- The point `int(x1 + (x2-x1) * (s/m))`, `int(y1 + (y2-y1) * (s/m))` that
`split_long_segments` inserts (astar.py lines 213-216), computed exactly:
`x1 + (x2-x1)*s/m = (x1*m + (x2-x1)*s)/m`.  Python evaluates the same value
in binary floating point; for the concrete inputs used in theorems below the
float computation is exact (all intermediate values are dyadic rationals). -/
def interpPoint (p q : Cell) (m s : ℕ) : Cell :=
  (pyInt (p.1 * m + (q.1 - p.1) * s) m, pyInt (p.2 * m + (q.2 - p.2) * s) m)

/-- Helper for `isqrt`: the largest `r ≤ k` with `r * r ≤ n`. -/
def isqrtAux (n : ℕ) : ℕ → ℕ
  | 0 => 0
  | k + 1 => if (k + 1) * (k + 1) ≤ n then k + 1 else isqrtAux n k

/-- Integer square root `⌊√n⌋`, by a kernel-reducible linear search
(`Nat.sqrt` itself does not reduce inside `decide`); `isqrt_eq_sqrt` below
identifies it with `Nat.sqrt`. -/
def isqrt (n : ℕ) : ℕ := isqrtAux n n

theorem isqrtAux_eq_sqrt (n : ℕ) :
    ∀ k, Nat.sqrt n ≤ k → isqrtAux n k = Nat.sqrt n := by
  intro k
  induction k with
  | zero => intro h; simpa [isqrtAux] using (Nat.le_antisymm h (Nat.zero_le _)).symm
  | succ k ih =>
    intro h
    by_cases hk : (k + 1) * (k + 1) ≤ n
    · have h1 : k + 1 ≤ Nat.sqrt n := Nat.le_sqrt.mpr hk
      simp [isqrtAux, hk, Nat.le_antisymm h h1]
    · have h2 : Nat.sqrt n ≤ k := by
        by_contra hc
        exact hk (Nat.le_sqrt.mp (Nat.lt_iff_add_one_le.mp (Nat.lt_of_not_le hc)))
      simp [isqrtAux, hk, ih h2]

theorem isqrt_eq_sqrt (n : ℕ) : isqrt n = Nat.sqrt n :=
  isqrtAux_eq_sqrt n n (Nat.sqrt_le_self n)

/-- The waypoints inserted between `p` and `q` (astar.py lines 208-216).
The float test `sqrt(d2) > max_length` is exactly `d2 > max_length²` for
integer `d2`, and `segments = int(sqrt(d2)/max_length) + 1` is exactly
`⌊√d2⌋ / max_length + 1` (float `sqrt` is correctly rounded and the quotient
is nowhere near an integer unless `d2` is an exact square, where `sqrt` is
exact). -/
def insertedPoints (maxLength : ℕ) (p q : Cell) : List Cell :=
  let d2 := sqDist p q
  if d2 ≤ (maxLength : ℤ) ^ 2 then []
  else
    let m := isqrt d2.toNat / maxLength + 1
    (List.range' 1 (m - 1)).map (fun s => interpPoint p q m s)

/-- Loop of `split_long_segments` (astar.py lines 205-217): for each
consecutive pair, the inserted waypoints followed by the original endpoint. -/
def splitGo (maxLength : ℕ) : Cell → List Cell → List Cell
  | _, [] => []
  | p, q :: rest => insertedPoints maxLength p q ++ q :: splitGo maxLength q rest

/-- `split_long_segments(path, max_length)` from astar.py lines 199-219. -/
def split_long_segments (path : List Cell) (maxLength : ℕ := 10) : List Cell :=
  match path with
  | [] => []
  | [p] => [p]
  | p :: rest => p :: splitGo maxLength p rest

set_option maxRecDepth 8000 in
/-- C9 counterexample: on the path `[(0,0), (19,5)]` (segment length
`√386 ≈ 19.65`, so one midpoint is inserted at the truncation of
`(9.5, 2.5)`, i.e. `(9,2)`) the output `[(0,0), (9,2), (19,5)]` has a
consecutive pair at squared distance `10² + 3² = 109 > 100`, i.e. Euclidean
distance `√109 > 10`.  All float arithmetic the code performs on this input
is exact (the ratio is `1/2`). -/
theorem split_exceeds_max_length :
    split_long_segments [((0 : ℤ), (0 : ℤ)), (19, 5)] 10 =
        [(0, 0), (9, 2), (19, 5)] ∧
      ¬ List.Chain' (fun p q => sqDist p q ≤ 100)
        (split_long_segments [((0 : ℤ), (0 : ℤ)), (19, 5)] 10) := by
  have e : split_long_segments [((0 : ℤ), (0 : ℤ)), (19, 5)] 10 =
      [(0, 0), (9, 2), (19, 5)] := by decide
  refine ⟨e, ?_⟩
  rw [e]
  simp only [List.chain'_cons, List.chain'_singleton, and_true]
  intro h
  exact absurd h.2 (by decide)

/-- The scan of `optimize_path`'s inner loop (astar.py line 183):
`for next_index in range(len(path)-1, current_index, -1)` stopping at the
first `j` with line of sight from `path[i]`; the list
`(range' (i+1) (len-1-i)).reverse` is exactly `len-1, len-2, ..., i+1`. -/
def findForward (grid : Grid) (path : List Cell) (i : ℕ) : Option ℕ :=
  ((List.range' (i + 1) (path.length - 1 - i)).reverse).find?
    (fun j => line_of_sight grid (path.getD i (0, 0)) (path.getD j (0, 0)))

theorem findForward_some {grid : Grid} {path : List Cell} {i j : ℕ}
    (h : findForward grid path i = some j) : i + 1 ≤ j ∧ j < path.length := by
  have hm := List.mem_of_find?_eq_some h
  rw [List.mem_reverse, List.mem_range'] at hm
  obtain ⟨k, hk, rfl⟩ := hm
  omega

/-- The `while current_index < len(path) - 1` loop of `optimize_path`
(astar.py lines 181-191): `acc` is the `optimized` list built so far, `i`
the `current_index`.  When the scan finds `j`, `path[j]` is appended and `i`
jumps to `j`; otherwise (the `else` of the `for`) `path[i+1]` is appended
and `i` advances by one.  `fuel` is a structural bound on the remaining
iterations; since every iteration strictly increases `i` and the loop stops
once `i = len(path) - 1`, any `fuel ≥ len(path) - 1 - i` gives the exact
loop semantics (`optLoop_fuel_succ` below makes this precise), and
`optimize_path` calls it with `fuel = len(path)`. -/
def optLoop (grid : Grid) (path : List Cell) :
    ℕ → ℕ → List Cell → List Cell
  | 0, _, acc => acc
  | fuel + 1, i, acc =>
    if i < path.length - 1 then
      match findForward grid path i with
      | some j => optLoop grid path fuel j (acc ++ [path.getD j (0, 0)])
      | none => optLoop grid path fuel (i + 1) (acc ++ [path.getD (i + 1) (0, 0)])
    else acc

theorem optLoop_fuel_succ (grid : Grid) (path : List Cell) :
    ∀ fuel i acc, path.length - 1 - i ≤ fuel →
      optLoop grid path (fuel + 1) i acc = optLoop grid path fuel i acc := by
  intro fuel
  induction fuel with
  | zero =>
    intro i acc h
    have hi : ¬ i < path.length - 1 := by omega
    simp [optLoop, hi]
  | succ fuel ih =>
    intro i acc h
    conv_lhs => rw [optLoop]
    conv_rhs => rw [optLoop]
    by_cases hi : i < path.length - 1
    · rw [if_pos hi, if_pos hi]
      cases hj : findForward grid path i with
      | some j =>
        have := (findForward_some hj).1
        exact ih j _ (by omega)
      | none => exact ih (i + 1) _ (by omega)
    · rw [if_neg hi, if_neg hi]

/-- `optimize_path(grid, path)` from astar.py lines 173-197. -/
def optimize_path (grid : Grid) (path : List Cell) : List Cell :=
  if path.length < 3 then path
  else
    let optimized := optLoop grid path path.length 0 [path.headD (0, 0)]
    if 2 < optimized.length ∧
        line_of_sight grid (optimized.headD (0, 0)) (optimized.getLastD (0, 0))
    then [optimized.headD (0, 0), optimized.getLastD (0, 0)]
    else optimized

/-- The scan of `reverse_optimize_path`'s inner loop (astar.py line 231):
`for next_index in range(0, current_index)` stopping at the first `j` with
line of sight from `path[j]` to `path[current_index]`. -/
def findRev (grid : Grid) (path : List Cell) (c : ℕ) : Option ℕ :=
  (List.range c).find?
    (fun j => line_of_sight grid (path.getD j (0, 0)) (path.getD c (0, 0)))

theorem findRev_some {grid : Grid} {path : List Cell} {c j : ℕ}
    (h : findRev grid path c = some j) : j < c := by
  have hm := List.mem_of_find?_eq_some h
  rwa [List.mem_range] at hm

/-- The `while current_index > 0` loop of `reverse_optimize_path`
(astar.py lines 229-239): `acc` is the backwards `optimized` list, `c` the
`current_index`.  As in `optLoop`, `fuel` is a structural bound on the
remaining iterations; every iteration strictly decreases `c`, so any
`fuel ≥ c` gives the exact loop semantics (`revLoop_fuel_succ`), and
`reverse_optimize_path` calls it with `fuel = len(path)`. -/
def revLoop (grid : Grid) (path : List Cell) :
    ℕ → ℕ → List Cell → List Cell
  | 0, _, acc => acc
  | fuel + 1, c, acc =>
    if 0 < c then
      match findRev grid path c with
      | some j => revLoop grid path fuel j (acc ++ [path.getD j (0, 0)])
      | none => revLoop grid path fuel (c - 1) (acc ++ [path.getD (c - 1) (0, 0)])
    else acc

theorem revLoop_fuel_succ (grid : Grid) (path : List Cell) :
    ∀ fuel c acc, c ≤ fuel →
      revLoop grid path (fuel + 1) c acc = revLoop grid path fuel c acc := by
  intro fuel
  induction fuel with
  | zero =>
    intro c acc h
    have hc : ¬ 0 < c := by omega
    simp [revLoop, hc]
  | succ fuel ih =>
    intro c acc h
    conv_lhs => rw [revLoop]
    conv_rhs => rw [revLoop]
    by_cases hc : 0 < c
    · rw [if_pos hc, if_pos hc]
      cases hj : findRev grid path c with
      | some j =>
        have := findRev_some hj
        exact ih j _ (by omega)
      | none => exact ih (c - 1) _ (by omega)
    · rw [if_neg hc, if_neg hc]

/-- `reverse_optimize_path(grid, path)` from astar.py lines 221-242. -/
def reverse_optimize_path (grid : Grid) (path : List Cell) : List Cell :=
  if path.length < 3 then path
  else
    (revLoop grid path path.length (path.length - 1) [path.getLastD (0, 0)]).reverse

/-- One pass of `multi_pass_optimize` (astar.py lines 250-256): resample,
forward pass, resample, reverse pass. -/
def multiPassStep (grid : Grid) (p : List Cell) : List Cell :=
  reverse_optimize_path grid
    (split_long_segments (optimize_path grid (split_long_segments p)))

/-- The `for i in range(passes)` loop of `multi_pass_optimize`. -/
def multiPassGo (grid : Grid) : ℕ → List Cell → List Cell
  | 0, p => p
  | k + 1, p => multiPassGo grid k (multiPassStep grid p)

/-- `multi_pass_optimize(grid, path, passes)` from astar.py lines 244-258. -/
def multi_pass_optimize (grid : Grid) (path : List Cell) (passes : ℕ := 5) :
    List Cell :=
  if path.length < 3 then path
  else multiPassGo grid passes path

/-- Boolean chain check: `chainB R l = true` iff `R` holds for every pair of
consecutive elements of `l` (kernel-reducible counterpart of `List.Chain'`). -/
def chainB (R : Cell → Cell → Bool) : List Cell → Bool
  | [] => true
  | [_] => true
  | p :: q :: rest => R p q && chainB R (q :: rest)

theorem chainB_iff_chain' (R : Cell → Cell → Bool) :
    ∀ l : List Cell, chainB R l = true ↔ List.Chain' (fun p q => R p q = true) l
  | [] => by simp [chainB]
  | [p] => by simp [chainB]
  | p :: q :: rest => by
    rw [List.chain'_cons, ← chainB_iff_chain' R (q :: rest)]
    simp [chainB]

/-- A cell that is inside the grid and walkable. -/
def freeCell (grid : Grid) (p : Cell) : Bool :=
  inGrid grid p.1 p.2 && decide (gridVal grid p.1 p.2 = 0)

/-- Whether two cells are 4-neighbors. -/
def fourAdjacent (p q : Cell) : Bool :=
  decide (|q.1 - p.1| + |q.2 - p.2| = 1)

/-- A raw path as produced by the planner: nonempty, every cell free and in
bounds, consecutive cells 4-adjacent. -/
def isRawPath (grid : Grid) (path : List Cell) : Bool :=
  !path.isEmpty && path.all (freeCell grid) && chainB fourAdjacent path

/-- A 14×11 grid built for the C3 counterexample: blocked cells are `(6,1)`,
`(6,5)` and all of row 10 except columns 3, 7 and 8. -/
def trapGrid : Grid :=
  (List.range 14).map fun x =>
    (List.range 11).map fun y =>
      if ((x : ℤ), (y : ℤ)) ∈
          ([(6, 1), (6, 5), (10, 0), (10, 1), (10, 2), (10, 4), (10, 5),
            (10, 6), (10, 9), (10, 10)] : List Cell)
      then 1 else 0

/-- A 4-connected raw path on `trapGrid` from `(0,0)` to `(11,9)`. -/
def trapRawPath : List Cell :=
  [(0, 0), (1, 0), (2, 0), (2, 1), (3, 1), (4, 1), (5, 1), (5, 2), (6, 2),
   (7, 2), (8, 2), (9, 2), (9, 3), (10, 3), (11, 3), (11, 4), (11, 5),
   (11, 6), (11, 7), (11, 8), (11, 9)]

set_option maxRecDepth 40000 in
/-- C3 counterexample: `trapRawPath` is a genuine raw path on `trapGrid`
(nonempty, free, in bounds, 4-connected), yet the polyline returned by
`multi_pass_optimize` is `[(0,0), (5,1), (11,9)]`, whose first consecutive
pair has no line of sight: `(5,1)` is the truncated midpoint that
`split_long_segments` inserted into the visible segment `(0,0)–(11,3)`, the
reverse pass reaches it (it is the earliest index seeing `(11,9)`) and then
falls back to `(0,0)` without a visibility check. -/
theorem multi_pass_optimize_breaks_los :
    isRawPath trapGrid trapRawPath = true ∧
      multi_pass_optimize trapGrid trapRawPath 5 = [(0, 0), (5, 1), (11, 9)] ∧
      chainB (line_of_sight trapGrid)
        (multi_pass_optimize trapGrid trapRawPath 5) = false := by
  refine ⟨by decide, by decide, by decide⟩

/-- Extending a chain by one element linked to the old last element. -/
theorem chain'_snoc {α : Type} {R : α → α → Prop} {l : List α} {a b : α}
    (hl : List.Chain' R l) (hlast : l.getLast? = some a) (hR : R a b) :
    List.Chain' R (l ++ [b]) := by
  rw [List.chain'_append]
  refine ⟨hl, List.chain'_singleton b, ?_⟩
  intro x hx y hy
  rw [hlast, Option.mem_def, Option.some.injEq] at hx
  simp only [List.head?_cons, Option.mem_def, Option.some.injEq] at hy
  rw [← hx, ← hy]
  exact hR

/-- Consecutive entries of a chain, through `getD`. -/
theorem chain'_getD {α : Type} {R : α → α → Prop} {l : List α} {d : α}
    (h : List.Chain' R l) {i : ℕ} (hi : i + 1 < l.length) :
    R (l.getD i d) (l.getD (i + 1) d) := by
  rw [List.getD_eq_getElem l d (by omega), List.getD_eq_getElem l d hi]
  exact List.chain'_iff_get.mp h i (by omega)

theorem optLoop_head? (grid : Grid) (path : List Cell) :
    ∀ fuel i acc, acc ≠ [] →
      (optLoop grid path fuel i acc).head? = acc.head? := by
  intro fuel
  induction fuel with
  | zero => intro i acc _; rfl
  | succ fuel ih =>
    intro i acc hacc
    rw [optLoop]
    by_cases hi : i < path.length - 1
    · rw [if_pos hi]
      cases findForward grid path i with
      | some j =>
        rw [ih j _ (by simp), List.head?_append_of_ne_nil _ hacc]
      | none =>
        rw [ih (i + 1) _ (by simp), List.head?_append_of_ne_nil _ hacc]
    · rw [if_neg hi]

theorem optLoop_getLast? (grid : Grid) (path : List Cell) :
    ∀ fuel i acc, path.length - 1 - i ≤ fuel → i ≤ path.length - 1 →
      acc.getLast? = some (path.getD i (0, 0)) →
      (optLoop grid path fuel i acc).getLast? =
        some (path.getD (path.length - 1) (0, 0)) := by
  intro fuel
  induction fuel with
  | zero =>
    intro i acc hfuel hi hacc
    have : i = path.length - 1 := by omega
    rw [optLoop, hacc, this]
  | succ fuel ih =>
    intro i acc hfuel hi hacc
    rw [optLoop]
    by_cases hlt : i < path.length - 1
    · rw [if_pos hlt]
      cases hj : findForward grid path i with
      | some j =>
        have hj' := findForward_some hj
        exact ih j _ (by omega) (by omega) (List.getLast?_concat _)
      | none =>
        exact ih (i + 1) _ (by omega) (by omega) (List.getLast?_concat _)
    · rw [if_neg hlt]
      have : i = path.length - 1 := by omega
      rw [hacc, this]

/-- The pairs `optLoop` appends all have line of sight, provided every pair
of consecutive input cells does (so that the fallback `else` branch appends
a visible pair as well). -/
theorem optLoop_chain (grid : Grid) (path : List Cell)
    (hpath : List.Chain' (fun p q => line_of_sight grid p q = true) path) :
    ∀ fuel i acc, acc.getLast? = some (path.getD i (0, 0)) →
      List.Chain' (fun p q => line_of_sight grid p q = true) acc →
      List.Chain' (fun p q => line_of_sight grid p q = true)
        (optLoop grid path fuel i acc) := by
  intro fuel
  induction fuel with
  | zero => intro i acc _ hacc; exact hacc
  | succ fuel ih =>
    intro i acc hlast hacc
    rw [optLoop]
    by_cases hlt : i < path.length - 1
    · rw [if_pos hlt]
      cases hj : findForward grid path i with
      | some j =>
        have hlos := List.find?_some hj
        exact ih j _ (List.getLast?_concat _)
          (chain'_snoc hacc hlast (by simpa using hlos))
      | none =>
        have hlos : line_of_sight grid (path.getD i (0, 0))
            (path.getD (i + 1) (0, 0)) = true :=
          chain'_getD hpath (by omega)
        exact ih (i + 1) _ (List.getLast?_concat _)
          (chain'_snoc hacc hlast hlos)
    · rw [if_neg hlt]
      exact hacc

theorem revLoop_head? (grid : Grid) (path : List Cell) :
    ∀ fuel c acc, acc ≠ [] →
      (revLoop grid path fuel c acc).head? = acc.head? := by
  intro fuel
  induction fuel with
  | zero => intro c acc _; rfl
  | succ fuel ih =>
    intro c acc hacc
    rw [revLoop]
    by_cases hc : 0 < c
    · rw [if_pos hc]
      cases findRev grid path c with
      | some j =>
        rw [ih j _ (by simp), List.head?_append_of_ne_nil _ hacc]
      | none =>
        rw [ih (c - 1) _ (by simp), List.head?_append_of_ne_nil _ hacc]
    · rw [if_neg hc]

theorem revLoop_getLast? (grid : Grid) (path : List Cell) :
    ∀ fuel c acc, c ≤ fuel →
      acc.getLast? = some (path.getD c (0, 0)) →
      (revLoop grid path fuel c acc).getLast? =
        some (path.getD 0 (0, 0)) := by
  intro fuel
  induction fuel with
  | zero =>
    intro c acc hfuel hacc
    have : c = 0 := by omega
    rw [revLoop, hacc, this]
  | succ fuel ih =>
    intro c acc hfuel hacc
    rw [revLoop]
    by_cases hc : 0 < c
    · rw [if_pos hc]
      cases hj : findRev grid path c with
      | some j =>
        have hj' := findRev_some hj
        exact ih j _ (by omega) (List.getLast?_concat _)
      | none =>
        exact ih (c - 1) _ (by omega) (List.getLast?_concat _)
    · rw [if_neg hc]
      have : c = 0 := by omega
      rw [hacc, this]

/-- The pairs `revLoop` appends all have line of sight in path order (the
accumulator runs backwards, so its chain is the flip), provided every pair
of consecutive input cells does. -/
theorem revLoop_chain (grid : Grid) (path : List Cell)
    (hpath : List.Chain' (fun p q => line_of_sight grid p q = true) path) :
    ∀ fuel c acc, c < path.length →
      acc.getLast? = some (path.getD c (0, 0)) →
      List.Chain' (fun p q => line_of_sight grid q p = true) acc →
      List.Chain' (fun p q => line_of_sight grid q p = true)
        (revLoop grid path fuel c acc) := by
  intro fuel
  induction fuel with
  | zero => intro c acc _ _ hacc; exact hacc
  | succ fuel ih =>
    intro c acc hc hlast hacc
    rw [revLoop]
    by_cases hpos : 0 < c
    · rw [if_pos hpos]
      cases hj : findRev grid path c with
      | some j =>
        have hlos := List.find?_some hj
        have hj' := findRev_some hj
        exact ih j _ (by omega) (List.getLast?_concat _)
          (chain'_snoc hacc hlast (by simpa using hlos))
      | none =>
        have hlos : line_of_sight grid (path.getD (c - 1) (0, 0))
            (path.getD c (0, 0)) = true := by
          have := chain'_getD hpath (d := (0, 0)) (i := c - 1)
            (by omega)
          simpa [Nat.sub_add_cancel hpos] using this
        exact ih (c - 1) _ (by omega) (List.getLast?_concat _)
          (chain'_snoc hacc hlast hlos)
    · rw [if_neg hpos]
      exact hacc

theorem head?_eq_some_headD {α : Type} (l : List α) (d : α) (h : l ≠ []) :
    l.head? = some (l.headD d) := by
  cases l with
  | nil => exact absurd rfl h
  | cons a t => rfl

theorem getLast?_eq_some_getLastD {α : Type} (l : List α) (d : α)
    (h : l ≠ []) : l.getLast? = some (l.getLastD d) := by
  cases hl : l.getLast? with
  | none => exact absurd (List.getLast?_eq_none_iff.mp hl) h
  | some a => rw [List.getLastD_eq_getLast?, hl]; rfl

theorem getD_zero_eq_headD {α : Type} (l : List α) (d : α) :
    l.getD 0 d = l.headD d := by
  cases l <;> rfl

theorem getD_length_sub_one {α : Type} (l : List α) (d : α) :
    l.getD (l.length - 1) d = l.getLastD d := by
  rw [List.getD_eq_getElem?_getD, ← List.getLast?_eq_getElem?,
    List.getLastD_eq_getLast?]

theorem optimize_path_head? (grid : Grid) (path : List Cell) :
    (optimize_path grid path).head? = path.head? := by
  by_cases h3 : path.length < 3
  · rw [optimize_path, if_pos h3]
  · have hne : path ≠ [] := fun h => by subst h; simp at h3
    rw [optimize_path, if_neg h3]
    have hopt : (optLoop grid path path.length 0 [path.headD (0, 0)]).head? =
        some (path.headD (0, 0)) := by
      rw [optLoop_head? grid path path.length 0 _ (by simp)]; rfl
    by_cases hc : 2 < (optLoop grid path path.length 0 [path.headD (0, 0)]).length ∧
        line_of_sight grid
          ((optLoop grid path path.length 0 [path.headD (0, 0)]).headD (0, 0))
          ((optLoop grid path path.length 0 [path.headD (0, 0)]).getLastD (0, 0))
    · rw [if_pos hc, List.head?_cons, List.headD_eq_head?, hopt,
        head?_eq_some_headD path (0, 0) hne]
      rfl
    · rw [if_neg hc, hopt, head?_eq_some_headD path (0, 0) hne]

theorem optimize_path_getLast? (grid : Grid) (path : List Cell) :
    (optimize_path grid path).getLast? = path.getLast? := by
  by_cases h3 : path.length < 3
  · rw [optimize_path, if_pos h3]
  · have hne : path ≠ [] := fun h => by subst h; simp at h3
    rw [optimize_path, if_neg h3]
    have hopt : (optLoop grid path path.length 0 [path.headD (0, 0)]).getLast? =
        some (path.getD (path.length - 1) (0, 0)) := by
      refine optLoop_getLast? grid path path.length 0 _ (by omega) (by omega) ?_
      rw [getD_zero_eq_headD]; rfl
    have hval : path.getD (path.length - 1) (0, 0) = path.getLastD (0, 0) :=
      getD_length_sub_one path (0, 0)
    by_cases hc : 2 < (optLoop grid path path.length 0 [path.headD (0, 0)]).length ∧
        line_of_sight grid
          ((optLoop grid path path.length 0 [path.headD (0, 0)]).headD (0, 0))
          ((optLoop grid path path.length 0 [path.headD (0, 0)]).getLastD (0, 0))
    · rw [if_pos hc, List.getLast?_cons_cons, List.getLast?_singleton,
        List.getLastD_eq_getLast?, hopt, hval,
        getLast?_eq_some_getLastD path (0, 0) hne]
      rfl
    · rw [if_neg hc, hopt, hval, getLast?_eq_some_getLastD path (0, 0) hne]

/-- Every consecutive pair of `optimize_path`'s output has line of sight,
provided every consecutive pair of the input does. -/
theorem optimize_path_chain (grid : Grid) (path : List Cell)
    (h : List.Chain' (fun p q => line_of_sight grid p q = true) path) :
    List.Chain' (fun p q => line_of_sight grid p q = true)
      (optimize_path grid path) := by
  by_cases h3 : path.length < 3
  · rw [optimize_path, if_pos h3]; exact h
  · rw [optimize_path, if_neg h3]
    have hchain : List.Chain' (fun p q => line_of_sight grid p q = true)
        (optLoop grid path path.length 0 [path.headD (0, 0)]) := by
      refine optLoop_chain grid path h path.length 0 _ ?_ ?_
      · rw [getD_zero_eq_headD]; rfl
      · exact List.chain'_singleton _
    by_cases hc : 2 < (optLoop grid path path.length 0 [path.headD (0, 0)]).length ∧
        line_of_sight grid
          ((optLoop grid path path.length 0 [path.headD (0, 0)]).headD (0, 0))
          ((optLoop grid path path.length 0 [path.headD (0, 0)]).getLastD (0, 0))
    · rw [if_pos hc]
      exact List.chain'_pair.mpr hc.2
    · rw [if_neg hc]
      exact hchain

theorem reverse_optimize_path_head? (grid : Grid) (path : List Cell) :
    (reverse_optimize_path grid path).head? = path.head? := by
  by_cases h3 : path.length < 3
  · rw [reverse_optimize_path, if_pos h3]
  · have hne : path ≠ [] := fun h => by subst h; simp at h3
    rw [reverse_optimize_path, if_neg h3, List.head?_reverse]
    rw [revLoop_getLast? grid path path.length (path.length - 1) _ (by omega) ?_]
    · rw [getD_zero_eq_headD, head?_eq_some_headD path (0, 0) hne]
    · rw [getD_length_sub_one]; rfl

theorem reverse_optimize_path_getLast? (grid : Grid) (path : List Cell) :
    (reverse_optimize_path grid path).getLast? = path.getLast? := by
  by_cases h3 : path.length < 3
  · rw [reverse_optimize_path, if_pos h3]
  · have hne : path ≠ [] := fun h => by subst h; simp at h3
    rw [reverse_optimize_path, if_neg h3, List.getLast?_reverse]
    rw [revLoop_head? grid path path.length (path.length - 1) _ (by simp)]
    rw [List.head?_cons, getLast?_eq_some_getLastD path (0, 0) hne]

/-- Every consecutive pair of `reverse_optimize_path`'s output has line of
sight, provided every consecutive pair of the input does. -/
theorem reverse_optimize_path_chain (grid : Grid) (path : List Cell)
    (h : List.Chain' (fun p q => line_of_sight grid p q = true) path) :
    List.Chain' (fun p q => line_of_sight grid p q = true)
      (reverse_optimize_path grid path) := by
  by_cases h3 : path.length < 3
  · rw [reverse_optimize_path, if_pos h3]; exact h
  · rw [reverse_optimize_path, if_neg h3, List.chain'_reverse]
    refine revLoop_chain grid path h path.length (path.length - 1) _
      (by omega) ?_ ?_
    · rw [getD_length_sub_one]; rfl
    · exact List.chain'_singleton _

theorem splitGo_getLast? (maxLength : ℕ) :
    ∀ (rest : List Cell) (p : Cell),
      (p :: splitGo maxLength p rest).getLast? = (p :: rest).getLast?
  | [], _ => rfl
  | q :: rest, p => by
    rw [splitGo, ← List.cons_append, List.getLast?_append_of_ne_nil _ (by simp),
      splitGo_getLast? maxLength rest q, List.getLast?_cons_cons]

theorem split_long_segments_head? (path : List Cell) (maxLength : ℕ) :
    (split_long_segments path maxLength).head? = path.head? := by
  match path with
  | [] => rfl
  | [p] => rfl
  | p :: q :: rest => rfl

theorem split_long_segments_getLast? (path : List Cell) (maxLength : ℕ) :
    (split_long_segments path maxLength).getLast? = path.getLast? := by
  match path with
  | [] => rfl
  | [p] => rfl
  | p :: q :: rest => exact splitGo_getLast? maxLength (q :: rest) p

theorem multiPassStep_head? (grid : Grid) (p : List Cell) :
    (multiPassStep grid p).head? = p.head? := by
  rw [multiPassStep, reverse_optimize_path_head?, split_long_segments_head?,
    optimize_path_head?, split_long_segments_head?]

theorem multiPassStep_getLast? (grid : Grid) (p : List Cell) :
    (multiPassStep grid p).getLast? = p.getLast? := by
  rw [multiPassStep, reverse_optimize_path_getLast?, split_long_segments_getLast?,
    optimize_path_getLast?, split_long_segments_getLast?]

theorem multiPassGo_head? (grid : Grid) :
    ∀ (passes : ℕ) (p : List Cell),
      (multiPassGo grid passes p).head? = p.head?
  | 0, _ => rfl
  | k + 1, p => by
    rw [multiPassGo, multiPassGo_head? grid k, multiPassStep_head?]

theorem multiPassGo_getLast? (grid : Grid) :
    ∀ (passes : ℕ) (p : List Cell),
      (multiPassGo grid passes p).getLast? = p.getLast?
  | 0, _ => rfl
  | k + 1, p => by
    rw [multiPassGo, multiPassGo_getLast? grid k, multiPassStep_getLast?]

theorem multi_pass_optimize_head? (grid : Grid) (path : List Cell)
    (passes : ℕ) : (multi_pass_optimize grid path passes).head? = path.head? := by
  rw [multi_pass_optimize]
  by_cases h3 : path.length < 3
  · rw [if_pos h3]
  · rw [if_neg h3, multiPassGo_head?]

theorem multi_pass_optimize_getLast? (grid : Grid) (path : List Cell)
    (passes : ℕ) :
    (multi_pass_optimize grid path passes).getLast? = path.getLast? := by
  rw [multi_pass_optimize]
  by_cases h3 : path.length < 3
  · rw [if_pos h3]
  · rw [if_neg h3, multiPassGo_getLast?]

/-- C10: for every grid and every nonempty path, each of
`split_long_segments` (max length 10), `optimize_path`,
`reverse_optimize_path` and `multi_pass_optimize` (any number of passes,
including the default 5) returns a polyline with the same first element and
the same last element as its input. -/
theorem simplifiers_preserve_endpoints (grid : Grid) (path : List Cell)
    (passes : ℕ) (_hne : path ≠ []) :
    ((split_long_segments path 10).head? = path.head? ∧
        (split_long_segments path 10).getLast? = path.getLast?) ∧
      ((optimize_path grid path).head? = path.head? ∧
        (optimize_path grid path).getLast? = path.getLast?) ∧
      ((reverse_optimize_path grid path).head? = path.head? ∧
        (reverse_optimize_path grid path).getLast? = path.getLast?) ∧
      ((multi_pass_optimize grid path passes).head? = path.head? ∧
        (multi_pass_optimize grid path passes).getLast? = path.getLast?) :=
  ⟨⟨split_long_segments_head? path 10, split_long_segments_getLast? path 10⟩,
    ⟨optimize_path_head? grid path, optimize_path_getLast? grid path⟩,
    ⟨reverse_optimize_path_head? grid path,
      reverse_optimize_path_getLast? grid path⟩,
    ⟨multi_pass_optimize_head? grid path passes,
      multi_pass_optimize_getLast? grid path passes⟩⟩

/-- Witness for `simplifiers_preserve_endpoints` at the concrete free 1×2
grid and the path `[(0,0), (0,1)]`. -/
theorem simplifiers_preserve_endpoints_witness :
    ([((0 : ℤ), (0 : ℤ)), (0, 1)] : List Cell) ≠ [] ∧
      ((split_long_segments [((0 : ℤ), (0 : ℤ)), (0, 1)] 10).head? =
          ([((0 : ℤ), (0 : ℤ)), (0, 1)] : List Cell).head? ∧
        (split_long_segments [((0 : ℤ), (0 : ℤ)), (0, 1)] 10).getLast? =
          ([((0 : ℤ), (0 : ℤ)), (0, 1)] : List Cell).getLast?) ∧
      ((optimize_path [[0, 0]] [((0 : ℤ), (0 : ℤ)), (0, 1)]).head? =
          ([((0 : ℤ), (0 : ℤ)), (0, 1)] : List Cell).head? ∧
        (optimize_path [[0, 0]] [((0 : ℤ), (0 : ℤ)), (0, 1)]).getLast? =
          ([((0 : ℤ), (0 : ℤ)), (0, 1)] : List Cell).getLast?) ∧
      ((reverse_optimize_path [[0, 0]] [((0 : ℤ), (0 : ℤ)), (0, 1)]).head? =
          ([((0 : ℤ), (0 : ℤ)), (0, 1)] : List Cell).head? ∧
        (reverse_optimize_path [[0, 0]] [((0 : ℤ), (0 : ℤ)), (0, 1)]).getLast? =
          ([((0 : ℤ), (0 : ℤ)), (0, 1)] : List Cell).getLast?) ∧
      ((multi_pass_optimize [[0, 0]] [((0 : ℤ), (0 : ℤ)), (0, 1)] 5).head? =
          ([((0 : ℤ), (0 : ℤ)), (0, 1)] : List Cell).head? ∧
        (multi_pass_optimize [[0, 0]] [((0 : ℤ), (0 : ℤ)), (0, 1)] 5).getLast? =
          ([((0 : ℤ), (0 : ℤ)), (0, 1)] : List Cell).getLast?) :=
  ⟨by simp, simplifiers_preserve_endpoints [[0, 0]] [((0 : ℤ), (0 : ℤ)), (0, 1)] 5
    (by simp)⟩

/-- C3 amended: when every consecutive pair of the input path has line of
sight — as holds in particular for a 4-connected path of free in-bounds
cells — both greedy passes return polylines whose consecutive pairs all have
line of sight.  (The full `multi_pass_optimize` does not preserve this, see
`multi_pass_optimize_breaks_los`: `split_long_segments` can insert a rounded
waypoint that breaks the invariant and the fallback branches then emit an
unchecked pair.) -/
theorem optimize_passes_preserve_los (grid : Grid) (path : List Cell)
    (h : List.Chain' (fun p q => line_of_sight grid p q = true) path) :
    List.Chain' (fun p q => line_of_sight grid p q = true)
        (optimize_path grid path) ∧
      List.Chain' (fun p q => line_of_sight grid p q = true)
        (reverse_optimize_path grid path) :=
  ⟨optimize_path_chain grid path h, reverse_optimize_path_chain grid path h⟩

/-- Witness for `optimize_passes_preserve_los` on the free 1×2 grid with the
path `[(0,0), (0,1)]`. -/
theorem optimize_passes_preserve_los_witness :
    List.Chain' (fun p q => line_of_sight [[0, 0]] p q = true)
        ([((0 : ℤ), (0 : ℤ)), (0, 1)] : List Cell) ∧
      (List.Chain' (fun p q => line_of_sight [[0, 0]] p q = true)
          (optimize_path [[0, 0]] [((0 : ℤ), (0 : ℤ)), (0, 1)]) ∧
        List.Chain' (fun p q => line_of_sight [[0, 0]] p q = true)
          (reverse_optimize_path [[0, 0]] [((0 : ℤ), (0 : ℤ)), (0, 1)])) :=
  ⟨List.chain'_pair.mpr (by decide),
    optimize_passes_preserve_los [[0, 0]] [((0 : ℤ), (0 : ℤ)), (0, 1)]
      (List.chain'_pair.mpr (by decide))⟩

/-- Search node (astar.py lines 4-19): a position, an optional parent link,
and the three costs; `Node.__init__(position, parent)` sets
`g = h = f = 0`.  Node equality in the code compares positions only, and
the heap orders nodes by `f`. -/
inductive Node : Type
  | mk (position : Cell) (parent : Option Node) (g h f : ℝ)

def Node.position : Node → Cell
  | .mk p _ _ _ _ => p

def Node.parent : Node → Option Node
  | .mk _ par _ _ _ => par

def Node.g : Node → ℝ
  | .mk _ _ g _ _ => g

def Node.h : Node → ℝ
  | .mk _ _ _ h _ => h

def Node.f : Node → ℝ
  | .mk _ _ _ _ f => f

/-- The positions along the parent links, starting at the node itself: what
the reconstruction loop of `astar` (astar.py lines 106-111) appends before
the final reversal. -/
def Node.chain : Node → List Cell
  | .mk p none _ _ _ => [p]
  | .mk p (some par) _ _ _ => p :: par.chain

theorem Node.chain_parent (cur par : Node) (h : cur.parent = some par) :
    cur.chain = cur.position :: par.chain := by
  cases cur with
  | mk p pp g hh f =>
    cases pp with
    | none => simp [Node.parent] at h
    | some x =>
      simp only [Node.parent, Option.some.injEq] at h
      subst h
      rfl

theorem Node.chain_no_parent (cur : Node) (h : cur.parent = none) :
    cur.chain = [cur.position] := by
  cases cur with
  | mk p pp g hh f =>
    cases pp with
    | none => rfl
    | some x => simp [Node.parent] at h

/-- `heuristic(a, b)` (astar.py lines 21-23): the Euclidean distance
`sqrt((a[0]-b[0])**2 + (a[1]-b[1])**2)`, with the float arithmetic modelled
over the reals. -/
noncomputable def heuristic (a b : Cell) : ℝ :=
  Real.sqrt (((a.1 - b.1 : ℤ) : ℝ) ^ 2 + ((a.2 - b.2 : ℤ) : ℝ) ^ 2)

open Classical in
/-- The per-child update of `astar` (astar.py lines 133-158).  The child has
just been created as `Node(node_position, current_node)` — so its `g` is the
`0` from `Node.__init__` — and this computes the `g`, `parent`, `h`, `f` it
carries when pushed onto the open list: in Theta* mode with a grandparent in
sight, `new_g = parent.g + heuristic(parent.position, child.position)` is
adopted only when `new_g < child.g`, i.e. `new_g < 0`; otherwise (and in
every other case) the fields the code actually assigns are produced. -/
noncomputable def updateChild (theta : Bool) (grid : Grid) (cur : Node)
    (childPos endPos : Cell) : Node :=
  let childG0 : ℝ := 0
  let gp : ℝ × Option Node :=
    match theta, cur.parent with
    | true, some par =>
      if line_of_sight grid par.position childPos then
        let newG := par.g + heuristic par.position childPos
        if newG < childG0 then (newG, some par) else (childG0, some cur)
      else (cur.g + 1, some cur)
    | _, _ => (cur.g + 1, some cur)
  let hChild := heuristic childPos endPos
  .mk childPos gp.2 gp.1 hChild (gp.1 + hChild)

/-- The bounds test of the child generation (astar.py lines 123-127):
`node_position[0] > len(grid)-1 or node_position[0] < 0 or
node_position[1] > len(grid[0])-1 or node_position[1] < 0` rejects. -/
def childInBounds (grid : Grid) (p : Cell) : Bool :=
  !(decide ((grid.length : ℤ) - 1 < p.1) || decide (p.1 < 0) ||
    decide (((grid.headD []).length : ℤ) - 1 < p.2) || decide (p.2 < 0))

/-- The candidate child positions of one expansion (astar.py lines 113-135):
the four 4-neighbors `(0,1), (1,0), (0,-1), (-1,0)` of the popped node that
are in bounds and walkable. -/
def childPositions (grid : Grid) (cur : Node) : List Cell :=
  ([(0, 1), (1, 0), (0, -1), (-1, 0)] : List Cell).filterMap fun d =>
    let np : Cell := (cur.position.1 + d.1, cur.position.2 + d.2)
    if childInBounds grid np ∧ gridVal grid np.1 np.2 = 0 then some np
    else none

open Classical in
/-- The child loop of `astar` (astar.py lines 137-168): each candidate
position is skipped when already closed; otherwise the updated child is
built, and it is pushed onto the open list (`acc`) unless some open node at
the same position already has `g` no greater than the child's. -/
noncomputable def pushChildren (theta : Bool) (grid : Grid) (endPos : Cell)
    (cur : Node) (closed : List Cell) : List Node → List Cell → List Node
  | acc, [] => acc
  | acc, pos :: rest =>
    if pos ∈ closed then pushChildren theta grid endPos cur closed acc rest
    else
      let child := updateChild theta grid cur pos endPos
      if ∃ o ∈ acc, child.position = o.position ∧ o.g ≤ child.g then
        pushChildren theta grid endPos cur closed acc rest
      else pushChildren theta grid endPos cur closed (acc ++ [child]) rest

/-- The open list after one full expansion of `cur`: `openRest` is the open
list with `cur` popped, `closed` already contains `cur.position`
(astar.py line 102 adds it before the children are generated). -/
noncomputable def expandOpen (theta : Bool) (grid : Grid) (endPos : Cell)
    (cur : Node) (openRest : List Node) (closed : List Cell) : List Node :=
  pushChildren theta grid endPos cur closed openRest (childPositions grid cur)

/-- Big-step semantics of the `while open_list` loop of `astar`
(astar.py lines 100-171), as a relation from a search state (open list and
closed set) to the returned value.  `heapq.heappop` removes an `f`-minimal
element of the heap; the popped node is represented as the distinguished
element of the decomposition `l₁ ++ cur :: l₂` together with the minimality
constraint.  On popping the goal the reversed parent chain is returned; on
an empty open list the search returns `None`. -/
inductive AstarResult (theta : Bool) (grid : Grid) (endPos : Cell) :
    List Node → List Cell → Option (List Cell) → Prop
  | found (l₁ l₂ : List Node) (cur : Node) (closed : List Cell) :
      (∀ o ∈ l₁ ++ cur :: l₂, cur.f ≤ o.f) → cur.position = endPos →
      AstarResult theta grid endPos (l₁ ++ cur :: l₂) closed
        (some cur.chain.reverse)
  | expand (l₁ l₂ : List Node) (cur : Node) (closed : List Cell)
      (res : Option (List Cell)) :
      (∀ o ∈ l₁ ++ cur :: l₂, cur.f ≤ o.f) → cur.position ≠ endPos →
      AstarResult theta grid endPos
        (expandOpen theta grid endPos cur (l₁ ++ l₂) (cur.position :: closed))
        (cur.position :: closed) res →
      AstarResult theta grid endPos (l₁ ++ cur :: l₂) closed res
  | exhausted (closed : List Cell) :
      AstarResult theta grid endPos [] closed none

/-- `astar(grid, start, end, theta)` returns `res` (astar.py lines 74-171):
the search starts from the open list `[Node(start)]` — pushed without any
bounds or walkability check on `start` — and the empty closed set. -/
def astarReturns (theta : Bool) (grid : Grid) (start endPos : Cell)
    (res : Option (List Cell)) : Prop :=
  AstarResult theta grid endPos [Node.mk start none 0 0 0] [] res

theorem freeCell_of_checks {grid : Grid} {p : Cell}
    (hb : childInBounds grid p = true) (hv : gridVal grid p.1 p.2 = 0) :
    freeCell grid p = true := by
  simp only [childInBounds, Bool.not_eq_true', Bool.or_eq_false_iff,
    decide_eq_false_iff_not, not_lt, List.headD_eq_head?] at hb
  simp [freeCell, inGrid, hv]
  omega

theorem childPositions_free {grid : Grid} {cur : Node} :
    ∀ p ∈ childPositions grid cur, freeCell grid p = true := by
  intro p hp
  simp only [childPositions, List.mem_filterMap] at hp
  obtain ⟨d, _, hd⟩ := hp
  by_cases hc : childInBounds grid (cur.position.1 + d.1, cur.position.2 + d.2) ∧
      gridVal grid (cur.position.1 + d.1) (cur.position.2 + d.2) = 0
  · rw [if_pos hc, Option.some.injEq] at hd
    rw [← hd]
    exact freeCell_of_checks hc.1 hc.2
  · rw [if_neg hc] at hd
    exact absurd hd (by simp)

/-- Whatever branch the cost update takes, the chain of the pushed child is
its position followed by the chain of `cur` or of `cur`'s parent. -/
theorem chain_updateChild (theta : Bool) (grid : Grid) (cur : Node)
    (childPos endPos : Cell) :
    (updateChild theta grid cur childPos endPos).chain =
        childPos :: cur.chain ∨
      ∃ par, cur.parent = some par ∧
        (updateChild theta grid cur childPos endPos).chain =
          childPos :: par.chain := by
  cases theta with
  | false =>
    left
    cases hp : cur.parent with
    | none => simp only [updateChild, hp]; rfl
    | some par => simp only [updateChild, hp]; rfl
  | true =>
    cases hp : cur.parent with
    | none =>
      left
      simp only [updateChild, hp]; rfl
    | some par =>
      by_cases hlos : line_of_sight grid par.position childPos
      · by_cases hg : par.g + heuristic par.position childPos < (0 : ℝ)
        · right
          refine ⟨par, rfl, ?_⟩
          simp only [updateChild, hp, if_pos hlos, if_pos hg]; rfl
        · left
          simp only [updateChild, hp, if_pos hlos, if_neg hg]; rfl
      · left
        simp only [updateChild, hp, if_neg hlos]; rfl

/-- A node all of whose chain cells are free and in bounds. -/
def NodeOK (grid : Grid) (n : Node) : Prop :=
  ∀ c ∈ n.chain, freeCell grid c = true

theorem nodeOK_updateChild {theta : Bool} {grid : Grid} {cur : Node}
    {childPos endPos : Cell} (hcur : NodeOK grid cur)
    (hpos : freeCell grid childPos = true) :
    NodeOK grid (updateChild theta grid cur childPos endPos) := by
  intro c hc
  rcases chain_updateChild theta grid cur childPos endPos with h | ⟨par, hpar, h⟩
  · rw [h] at hc
    rcases List.mem_cons.mp hc with rfl | hc
    · exact hpos
    · exact hcur c hc
  · rw [h] at hc
    rcases List.mem_cons.mp hc with rfl | hc
    · exact hpos
    · exact hcur c (by rw [Node.chain_parent cur par hpar]; exact List.mem_cons_of_mem _ hc)

theorem pushChildren_ok {theta : Bool} {grid : Grid} {endPos : Cell}
    {cur : Node} {closed : List Cell} (hcur : NodeOK grid cur) :
    ∀ poss acc, (∀ n ∈ acc, NodeOK grid n) →
      (∀ p ∈ poss, freeCell grid p = true) →
      ∀ n ∈ pushChildren theta grid endPos cur closed acc poss, NodeOK grid n
  | [], acc => fun hacc _ => hacc
  | pos :: rest, acc => by
    intro hacc hposs
    rw [pushChildren]
    by_cases hcl : pos ∈ closed
    · rw [if_pos hcl]
      exact pushChildren_ok hcur rest acc hacc
        (fun p hp => hposs p (List.mem_cons_of_mem _ hp))
    · rw [if_neg hcl]
      by_cases hdup : ∃ o ∈ acc,
          (updateChild theta grid cur pos endPos).position = o.position ∧
            o.g ≤ (updateChild theta grid cur pos endPos).g
      · rw [if_pos hdup]
        exact pushChildren_ok hcur rest acc hacc
          (fun p hp => hposs p (List.mem_cons_of_mem _ hp))
      · rw [if_neg hdup]
        refine pushChildren_ok hcur rest _ ?_
          (fun p hp => hposs p (List.mem_cons_of_mem _ hp))
        intro n hn
        rcases List.mem_append.mp hn with hn | hn
        · exact hacc n hn
        · rw [List.mem_singleton.mp hn]
          exact nodeOK_updateChild hcur (hposs pos (List.mem_cons_self _ _))

/-- Core invariant of the search: if every node on the open list has a chain
of free in-bounds cells, any returned path consists of free in-bounds
cells. -/
theorem astarResult_free {theta : Bool} {grid : Grid} {endPos : Cell} :
    ∀ {openL : List Node} {closed : List Cell} {res : Option (List Cell)},
      AstarResult theta grid endPos openL closed res →
      (∀ n ∈ openL, NodeOK grid n) →
      ∀ path, res = some path → ∀ c ∈ path, freeCell grid c = true := by
  intro openL closed res hrun
  induction hrun with
  | found l₁ l₂ cur closed hmin hpos =>
    intro hopen path hpath c hc
    rw [Option.some.injEq] at hpath
    rw [← hpath, List.mem_reverse] at hc
    exact hopen cur (by simp) c hc
  | expand l₁ l₂ cur closed res hmin hpos hrec ih =>
    intro hopen path hpath c hc
    refine ih ?_ path hpath c hc
    refine pushChildren_ok (hopen cur (by simp)) _ _ ?_ childPositions_free
    intro n hn
    refine hopen n ?_
    rcases List.mem_append.mp hn with hn | hn
    · exact List.mem_append.mpr (Or.inl hn)
    · exact List.mem_append.mpr (Or.inr (List.mem_cons_of_mem _ hn))
  | exhausted closed =>
    intro _ path hpath
    exact absurd hpath (by simp)

/-- C4 amended: in either mode, if the start cell is free and in bounds and
`astar` returns a path, every cell of the path is free and in bounds.  (The
hypothesis on the start is necessary: see `astar_returns_blocked_start` —
the code pushes `Node(start)` without any validity check.) -/
theorem astar_path_cells_free (theta : Bool) (grid : Grid)
    (start endPos : Cell) (path : List Cell)
    (hstart : freeCell grid start = true)
    (hrun : astarReturns theta grid start endPos (some path)) :
    ∀ c ∈ path, freeCell grid c = true := by
  refine astarResult_free hrun ?_ path rfl
  intro n hn c hc
  rw [List.mem_singleton.mp hn] at hc
  cases List.mem_singleton.mp hc
  exact hstart

/-- C4 counterexample: on the 1×1 grid whose only cell is blocked, with
`start = end = (0,0)`, the search pops `Node(start)` (pushed with no
validity check), matches the goal at once, and returns the path `[(0,0)]`
— a blocked cell. -/
theorem astar_returns_blocked_start :
    astarReturns false [[1]] (0, 0) (0, 0) (some [(0, 0)]) ∧
      freeCell [[1]] (0, 0) = false := by
  constructor
  · have hmin : ∀ o ∈ ([] : List Node) ++ Node.mk (0, 0) none 0 0 0 :: [],
        (Node.mk ((0 : ℤ), (0 : ℤ)) none 0 0 0).f ≤ o.f := by
      intro o ho
      rw [List.nil_append, List.mem_singleton] at ho
      rw [ho]
    exact AstarResult.found [] [] (Node.mk (0, 0) none 0 0 0) [] hmin rfl
  · decide

/-- Witness for `astar_path_cells_free`: on the free 1×1 grid with
`start = end = (0,0)` the search returns `[(0,0)]`, and the theorem applies. -/
theorem astar_path_cells_free_witness :
    freeCell [[0]] (0, 0) = true ∧
      astarReturns false [[0]] (0, 0) (0, 0) (some [(0, 0)]) ∧
      ∀ c ∈ ([((0 : ℤ), (0 : ℤ))] : List Cell), freeCell [[0]] c = true := by
  have hrun : astarReturns false [[0]] (0, 0) (0, 0) (some [(0, 0)]) := by
    have hmin : ∀ o ∈ ([] : List Node) ++ Node.mk (0, 0) none 0 0 0 :: [],
        (Node.mk ((0 : ℤ), (0 : ℤ)) none 0 0 0).f ≤ o.f := by
      intro o ho
      rw [List.nil_append, List.mem_singleton] at ho
      rw [ho]
    exact AstarResult.found [] [] (Node.mk (0, 0) none 0 0 0) [] hmin rfl
  exact ⟨by decide, hrun,
    astar_path_cells_free false [[0]] (0, 0) (0, 0) [(0, 0)] (by decide) hrun⟩

/-- A 5×5 grid of free cells. -/
def freeGrid5 : Grid := List.replicate 5 (List.replicate 5 0)

/-- The start node of a search on `freeGrid5` from `(0,0)`. -/
noncomputable def gpNode : Node := .mk (0, 0) none 0 0 0

/-- The node the search creates for `(1,0)` when expanding the start node
towards `(4,0)`: parent is the start node and `g = 0 + 1` (the start has no
parent, so even in Theta* mode the plain update runs). -/
noncomputable def curNode : Node :=
  .mk (1, 0) (some gpNode) 1 (heuristic (1, 0) (4, 0))
    (1 + heuristic (1, 0) (4, 0))

/-- Evaluation of the Theta* branch when line of sight holds but
`new_g ≥ child.g = 0` (which is always, since costs are nonnegative): the
child keeps `g = 0` and parent `current`. -/
theorem updateChild_los_case (grid : Grid) (cur par : Node)
    (childPos endPos : Cell) (hpar : cur.parent = some par)
    (hlos : line_of_sight grid par.position childPos = true)
    (hge : ¬ par.g + heuristic par.position childPos < 0) :
    updateChild true grid cur childPos endPos =
      .mk childPos (some cur) 0 (heuristic childPos endPos)
        (0 + heuristic childPos endPos) := by
  cases cur with
  | mk p pp g h f =>
    cases pp with
    | none => simp [Node.parent] at hpar
    | some q =>
      simp only [Node.parent, Option.some.injEq] at hpar
      subst hpar
      simp only [updateChild, Node.parent, if_pos hlos, if_neg hge]

theorem heuristic_two_cells_down : heuristic (0, 0) (2, 0) = 2 := by
  unfold heuristic
  norm_num
  rw [show ((4 : ℝ)) = 2 ^ 2 by norm_num,
    Real.sqrt_sq (by norm_num : (0 : ℝ) ≤ 2)]

/-- C1 (code bug): in Theta* mode, at the reachable search state where the
popped node is `curNode = Node((1,0), parent p = Node((0,0)))` with
`curNode.g = 1`, the child `(2,0)` is generated and
`line_of_sight(grid, (0,0), (2,0))` holds on the free 5×5 grid; the spec
says the child then gets `g = p.g + Euclidean((0,0),(2,0)) = 2` and parent
`p`, but the code guards the assignment with `new_g < child.g` where
`child.g` is the `0` set by `Node.__init__`, so the freshly created child
keeps `g = 0` and parent `curNode`: the reparenting branch is dead code. -/
theorem theta_star_never_reparents :
    line_of_sight freeGrid5 (0, 0) (2, 0) = true ∧
      (updateChild true freeGrid5 curNode (2, 0) (4, 0)).g = 0 ∧
      (updateChild true freeGrid5 curNode (2, 0) (4, 0)).parent =
        some curNode ∧
      gpNode.g + heuristic gpNode.position (2, 0) = 2 ∧
      (updateChild true freeGrid5 curNode (2, 0) (4, 0)).g ≠
        gpNode.g + heuristic gpNode.position (2, 0) ∧
      (updateChild true freeGrid5 curNode (2, 0) (4, 0)).parent ≠
        some gpNode := by
  have hlos : line_of_sight freeGrid5 (0, 0) (2, 0) = true := by decide
  have hpos : gpNode.position = ((0 : ℤ), (0 : ℤ)) := rfl
  have hgp : gpNode.g = 0 := rfl
  have hsum : gpNode.g + heuristic gpNode.position (2, 0) = 2 := by
    rw [hgp, hpos, heuristic_two_cells_down, zero_add]
  have heval := updateChild_los_case freeGrid5 curNode gpNode (2, 0) (4, 0)
    rfl (by rw [hpos]; exact hlos)
    (by rw [hgp, hpos, heuristic_two_cells_down]; norm_num)
  refine ⟨hlos, by rw [heval]; rfl, by rw [heval]; rfl, hsum, ?_, ?_⟩
  · rw [heval, hsum]
    show (0 : ℝ) ≠ 2
    norm_num
  · rw [heval]
    show some curNode ≠ some gpNode
    intro hcon
    have hpp : curNode.position = gpNode.position :=
      congrArg Node.position (Option.some.inj hcon)
    have hxy : ((1 : ℤ), (0 : ℤ)) = ((0 : ℤ), (0 : ℤ)) := hpp
    exact absurd hxy (by decide)

/-- Modelled from the spec: the Manhattan distance between two cells, which
section 4.3 prescribes as the heuristic of plain A* mode.  The code has no
Manhattan distance anywhere — its `heuristic` (astar.py lines 21-23) is the
Euclidean distance and is used in both modes (line 157). -/
noncomputable def manhattanSpec (a b : Cell) : ℝ :=
  ((|a.1 - b.1| + |a.2 - b.2| : ℤ) : ℝ)

/-- C8 counterexample: in plain A* mode (`theta = false`), the `h` the code
assigns to a child at `(0,0)` with goal `(1,1)` is `√2`, not the Manhattan
distance `2` the spec claims. -/
theorem plain_mode_h_not_manhattan :
    (updateChild false freeGrid5 curNode (0, 0) (1, 1)).h ≠
      manhattanSpec (0, 0) (1, 1) := by
  have h1 : (updateChild false freeGrid5 curNode (0, 0) (1, 1)).h =
      heuristic (0, 0) (1, 1) := rfl
  have h2 : heuristic (0, 0) (1, 1) = Real.sqrt 2 := by
    unfold heuristic
    norm_num
  have h3 : manhattanSpec (0, 0) (1, 1) = 2 := by
    unfold manhattanSpec
    norm_num
  rw [h1, h2, h3]
  intro heq
  have hsq : Real.sqrt 2 ^ 2 = 2 := Real.sq_sqrt (by norm_num)
  rw [heq] at hsq
  norm_num at hsq

/-- C8 amended: the heuristic `h` assigned to a child node is the Euclidean
distance from the child to the goal in both modes (`heuristic` is invoked at
astar.py line 157 regardless of `theta`). -/
theorem astar_h_euclidean_in_both_modes (theta : Bool) (grid : Grid)
    (cur : Node) (childPos endPos : Cell) :
    (updateChild theta grid cur childPos endPos).h =
        Real.sqrt (((childPos.1 - endPos.1 : ℤ) : ℝ) ^ 2 +
          ((childPos.2 - endPos.2 : ℤ) : ℝ) ^ 2) ∧
      (updateChild true grid cur childPos endPos).h =
        (updateChild false grid cur childPos endPos).h :=
  ⟨rfl, rfl⟩

theorem pyInt_mul_cancel (a : ℤ) {m : ℤ} (hm : m ≠ 0) : pyInt (a * m) m = a := by
  unfold pyInt
  by_cases h : 0 ≤ a * m
  · rw [if_pos h, Int.mul_ediv_cancel a hm]
  · rw [if_neg h, show -(a * m) = (-a) * m by ring, Int.mul_ediv_cancel _ hm,
      neg_neg]

theorem interpPoint_zero (p q : Cell) (m : ℕ) (hm : (m : ℤ) ≠ 0) :
    interpPoint p q m 0 = p := by
  simp only [interpPoint, Nat.cast_zero, mul_zero, add_zero]
  rw [pyInt_mul_cancel p.1 hm, pyInt_mul_cancel p.2 hm]

theorem interpPoint_last (p q : Cell) (m : ℕ) (hm : (m : ℤ) ≠ 0) :
    interpPoint p q m m = q := by
  simp only [interpPoint]
  rw [show p.1 * (m : ℤ) + (q.1 - p.1) * (m : ℕ) = q.1 * m by ring,
    show p.2 * (m : ℤ) + (q.2 - p.2) * (m : ℕ) = q.2 * m by ring,
    pyInt_mul_cancel q.1 hm, pyInt_mul_cancel q.2 hm]

theorem pyInt_bounds {a m : ℤ} (ha : 0 ≤ a) (hm : 0 < m) :
    m * pyInt a m ≤ a ∧ a < m * pyInt a m + m := by
  rw [pyInt, if_pos ha]
  have hd := Int.ediv_add_emod a m
  have h0 := Int.emod_nonneg a (by omega : m ≠ 0)
  have h1 := Int.emod_lt_of_pos a hm
  constructor <;> linarith

/-- One-dimensional step bound for the truncated interpolation: consecutive
truncations of values `a` and `a + X` differ by at most `(X + m - 1)/m`. -/
theorem pyInt_gap {a X m : ℤ} (ha : 0 ≤ a) (ha' : 0 ≤ a + X) (hm : 0 < m) :
    X - (m - 1) ≤ m * (pyInt (a + X) m - pyInt a m) ∧
      m * (pyInt (a + X) m - pyInt a m) ≤ X + (m - 1) := by
  obtain ⟨h1, h2⟩ := pyInt_bounds ha hm
  obtain ⟨h3, h4⟩ := pyInt_bounds ha' hm
  rw [mul_sub]
  constructor <;> linarith

theorem no_sum_sq_131 (a b : ℕ) (ha : a ≤ 11) (hb : b ≤ 11) :
    a ^ 2 + b ^ 2 ≠ 131 := by
  interval_cases a <;> interval_cases b <;> decide

/-- Core arithmetic bound: if `M·GX` and `M·GY` are within `M - 1` of `X`
and `Y`, and `X² + Y² < (10M)²`, then `GX² + GY² ≤ 130` (the real bound is
`(10 + √2)² ≈ 130.28`, and `131` is not a sum of two squares). -/
theorem gap_sq_core {M X Y GX GY : ℤ} (hM : 2 ≤ M)
    (hx1 : X - (M - 1) ≤ M * GX) (hx2 : M * GX ≤ X + (M - 1))
    (hy1 : Y - (M - 1) ≤ M * GY) (hy2 : M * GY ≤ Y + (M - 1))
    (hd2 : X ^ 2 + Y ^ 2 ≤ 100 * M ^ 2 - 1) :
    GX ^ 2 + GY ^ 2 ≤ 130 := by
  have hsq_x : (M * GX) ^ 2 ≤ (|X| + (M - 1)) ^ 2 := by
    refine sq_le_sq' ?_ ?_
    · have := neg_abs_le X
      linarith
    · have := le_abs_self X
      linarith
  have hsq_y : (M * GY) ^ 2 ≤ (|Y| + (M - 1)) ^ 2 := by
    refine sq_le_sq' ?_ ?_
    · have := neg_abs_le Y
      linarith
    · have := le_abs_self Y
      linarith
  have habs0 : 0 ≤ |X| + |Y| := by positivity
  have hA : (0 : ℤ) ≤ 29 * M ^ 2 + 4 * M - 1 := by nlinarith [sq_nonneg M]
  have hs2 : (|X| + |Y|) ^ 2 ≤ 200 * M ^ 2 - 2 := by
    linarith [sq_abs X, sq_abs Y, sq_nonneg (|X| - |Y|)]
  have hpoly : 4 * (M - 1) ^ 2 * (200 * M ^ 2 - 2) ≤
      (29 * M ^ 2 + 4 * M - 1) ^ 2 := by
    nlinarith [sq_nonneg (M - 2), sq_nonneg M,
      mul_nonneg (mul_nonneg (by omega : (0 : ℤ) ≤ M - 2)
        (by omega : (0 : ℤ) ≤ M)) (by omega : (0 : ℤ) ≤ M)]
  have hscaled : 4 * (M - 1) ^ 2 * ((|X| + |Y|) ^ 2) ≤
      4 * (M - 1) ^ 2 * (200 * M ^ 2 - 2) :=
    mul_le_mul_of_nonneg_left hs2 (by positivity)
  have hu2 : (2 * (M - 1) * (|X| + |Y|)) ^ 2 ≤
      (29 * M ^ 2 + 4 * M - 1) ^ 2 := by
    linarith [hscaled, hpoly]
  have hu : 2 * (M - 1) * (|X| + |Y|) ≤ 29 * M ^ 2 + 4 * M - 1 :=
    le_of_pow_le_pow_left₀ two_ne_zero hA hu2
  have hfinal : M ^ 2 * (GX ^ 2 + GY ^ 2) ≤ 131 * M ^ 2 := by
    linarith [hsq_x, hsq_y, hu, hd2, sq_abs X, sq_abs Y]
  have h131 : GX ^ 2 + GY ^ 2 ≤ 131 := by
    by_contra hcon
    push_neg at hcon
    have h132 : 132 ≤ GX ^ 2 + GY ^ 2 := Int.add_one_le_iff.mpr hcon
    have hM2pos : (0 : ℤ) < M ^ 2 := by positivity
    have hmul : M ^ 2 * 132 ≤ M ^ 2 * (GX ^ 2 + GY ^ 2) :=
      mul_le_mul_of_nonneg_left h132 (le_of_lt hM2pos)
    linarith [hfinal, hmul, hM2pos]
  have hne : GX ^ 2 + GY ^ 2 ≠ 131 := by
    intro he
    have hb_x : GX.natAbs ≤ 11 := by
      by_contra hbx
      push_neg at hbx
      have h144 : (144 : ℤ) ≤ ((GX.natAbs : ℤ)) ^ 2 := by
        have h12 : (12 : ℕ) ^ 2 ≤ GX.natAbs ^ 2 := Nat.pow_le_pow_left hbx 2
        exact_mod_cast h12
      rw [Int.natAbs_sq] at h144
      linarith [sq_nonneg GY]
    have hb_y : GY.natAbs ≤ 11 := by
      by_contra hby
      push_neg at hby
      have h144 : (144 : ℤ) ≤ ((GY.natAbs : ℤ)) ^ 2 := by
        have h12 : (12 : ℕ) ^ 2 ≤ GY.natAbs ^ 2 := Nat.pow_le_pow_left hby 2
        exact_mod_cast h12
      rw [Int.natAbs_sq] at h144
      linarith [sq_nonneg GX]
    have hnat : GX.natAbs ^ 2 + GY.natAbs ^ 2 = 131 := by
      have hcast : ((GX.natAbs ^ 2 + GY.natAbs ^ 2 : ℕ) : ℤ) = 131 := by
        push_cast [Int.natAbs_sq]
        rw [sq_abs, sq_abs]
        exact he
      exact_mod_cast hcast
    exact no_sum_sq_131 _ _ hb_x hb_y hnat
  have hlt : GX ^ 2 + GY ^ 2 < 131 := lt_of_le_of_ne h131 hne
  have hlt' : GX ^ 2 + GY ^ 2 < 130 + 1 := by linarith
  exact Int.lt_add_one_iff.mp hlt'

/-- The squared distance between consecutive inserted waypoints, for a
segment of squared length `< (10m)²` split into `m ≥ 2` parts with
truncation to integer coordinates, is at most `130 < (10 + √2)²`. -/
theorem interp_gap_sq (p q : Cell) (m s : ℕ)
    (hp1 : 0 ≤ p.1) (hp2 : 0 ≤ p.2) (hq1 : 0 ≤ q.1) (hq2 : 0 ≤ q.2)
    (hm : 2 ≤ m) (hs : s + 1 ≤ m)
    (hd2 : sqDist p q ≤ 100 * (m : ℤ) ^ 2 - 1) :
    sqDist (interpPoint p q m s) (interpPoint p q m (s + 1)) ≤ 130 := by
  have hM2 : (2 : ℤ) ≤ (m : ℤ) := by exact_mod_cast hm
  have hMpos : (0 : ℤ) < (m : ℤ) := by omega
  have hsM : (s : ℤ) + 1 ≤ (m : ℤ) := by exact_mod_cast hs
  have hs0 : (0 : ℤ) ≤ (s : ℤ) := Int.ofNat_nonneg s
  have hd2' : (q.1 - p.1) ^ 2 + (q.2 - p.2) ^ 2 ≤ 100 * (m : ℤ) ^ 2 - 1 := hd2
  -- nonnegativity of the interpolated numerators
  have ha1 : 0 ≤ p.1 * (m : ℤ) + (q.1 - p.1) * s := by
    nlinarith [mul_nonneg hp1 (by omega : (0 : ℤ) ≤ (m : ℤ) - s),
      mul_nonneg hq1 hs0]
  have ha1' : 0 ≤ p.1 * (m : ℤ) + (q.1 - p.1) * s + (q.1 - p.1) := by
    nlinarith [mul_nonneg hp1 (by omega : (0 : ℤ) ≤ (m : ℤ) - (s + 1)),
      mul_nonneg hq1 (by omega : (0 : ℤ) ≤ (s : ℤ) + 1)]
  have ha2 : 0 ≤ p.2 * (m : ℤ) + (q.2 - p.2) * s := by
    nlinarith [mul_nonneg hp2 (by omega : (0 : ℤ) ≤ (m : ℤ) - s),
      mul_nonneg hq2 hs0]
  have ha2' : 0 ≤ p.2 * (m : ℤ) + (q.2 - p.2) * s + (q.2 - p.2) := by
    nlinarith [mul_nonneg hp2 (by omega : (0 : ℤ) ≤ (m : ℤ) - (s + 1)),
      mul_nonneg hq2 (by omega : (0 : ℤ) ≤ (s : ℤ) + 1)]
  obtain ⟨hgx1, hgx2⟩ := pyInt_gap ha1 ha1' hMpos
  obtain ⟨hgy1, hgy2⟩ := pyInt_gap ha2 ha2' hMpos
  have e1 : p.1 * (m : ℤ) + (q.1 - p.1) * ((s + 1 : ℕ) : ℤ) =
      p.1 * (m : ℤ) + (q.1 - p.1) * s + (q.1 - p.1) := by
    push_cast
    ring
  have e2 : p.2 * (m : ℤ) + (q.2 - p.2) * ((s + 1 : ℕ) : ℤ) =
      p.2 * (m : ℤ) + (q.2 - p.2) * s + (q.2 - p.2) := by
    push_cast
    ring
  show (pyInt (p.1 * (m : ℤ) + (q.1 - p.1) * ((s + 1 : ℕ) : ℤ)) m -
        pyInt (p.1 * (m : ℤ) + (q.1 - p.1) * s) m) ^ 2 +
      (pyInt (p.2 * (m : ℤ) + (q.2 - p.2) * ((s + 1 : ℕ) : ℤ)) m -
        pyInt (p.2 * (m : ℤ) + (q.2 - p.2) * s) m) ^ 2 ≤ 130
  rw [e1, e2]
  exact gap_sq_core hM2 hgx1 hgx2 hgy1 hgy2 hd2'

theorem sqDist_nonneg (p q : Cell) : 0 ≤ sqDist p q :=
  add_nonneg (sq_nonneg _) (sq_nonneg _)

/-- The segment count chosen by `split_long_segments` for a long pair:
at least 2, and large enough that the segment is shorter than
`10 * segments`. -/
theorem split_m_bounds (p q : Cell) (h : 100 < sqDist p q) :
    2 ≤ isqrt (sqDist p q).toNat / 10 + 1 ∧
      sqDist p q ≤
        100 * ((isqrt (sqDist p q).toNat / 10 + 1 : ℕ) : ℤ) ^ 2 - 1 := by
  have hnn := sqDist_nonneg p q
  have hcast : ((sqDist p q).toNat : ℤ) = sqDist p q := Int.toNat_of_nonneg hnn
  have h101 : 101 ≤ (sqDist p q).toNat := by omega
  rw [isqrt_eq_sqrt]
  have hq10 : 10 ≤ Nat.sqrt (sqDist p q).toNat := by
    calc 10 = Nat.sqrt 101 := by norm_num
    _ ≤ Nat.sqrt (sqDist p q).toNat := Nat.sqrt_le_sqrt h101
  constructor
  · omega
  · have hlt := Nat.lt_succ_sqrt (sqDist p q).toNat
    set r := Nat.sqrt (sqDist p q).toNat with hr
    have hle : r + 1 ≤ 10 * (r / 10 + 1) := by omega
    have hsq : (r + 1) * (r + 1) ≤
        (10 * (r / 10 + 1)) * (10 * (r / 10 + 1)) :=
      Nat.mul_le_mul hle hle
    have hlt' : (sqDist p q).toNat < (r + 1) * (r + 1) := by
      simpa [Nat.succ_eq_add_one] using hlt
    have hn : (sqDist p q).toNat <
        (10 * (r / 10 + 1)) * (10 * (r / 10 + 1)) :=
      lt_of_lt_of_le hlt' hsq
    set K := r / 10 + 1 with hK
    have hz : sqDist p q < (((10 * K) * (10 * K) : ℕ) : ℤ) := by
      rw [← hcast]
      exact_mod_cast hn
    have h100 : sqDist p q < 100 * (K : ℤ) ^ 2 := by
      push_cast at hz ⊢
      nlinarith [hz]
    have h1 := Int.add_one_le_iff.mpr h100
    linarith

/-- For a long pair, the list `p :: inserted ++ [q]` is the image of
`0, 1, ..., m` under the interpolation map. -/
theorem insert_list_eq (p q : Cell) (h : ¬ sqDist p q ≤ 100)
    (hm2 : 2 ≤ isqrt (sqDist p q).toNat / 10 + 1) :
    p :: insertedPoints 10 p q ++ [q] =
      (List.range (isqrt (sqDist p q).toNat / 10 + 1 + 1)).map
        (fun s => interpPoint p q (isqrt (sqDist p q).toNat / 10 + 1) s) := by
  have h' : ¬ sqDist p q ≤ ((10 : ℕ) : ℤ) ^ 2 := by push_cast; exact h
  have hmz : ((isqrt (sqDist p q).toNat / 10 + 1 : ℕ) : ℤ) ≠ 0 := by
    exact_mod_cast (by omega : isqrt (sqDist p q).toNat / 10 + 1 ≠ 0)
  rw [insertedPoints]
  rw [if_neg h']
  set m := isqrt (sqDist p q).toNat / 10 + 1 with hmdef
  have hrange : List.range (m + 1) =
      0 :: (List.range' 1 (m - 1) ++ [m]) := by
    rw [List.range_eq_range', List.range'_succ]
    congr 1
    have hm1 : m = (m - 1) + 1 := by omega
    rw [hm1, List.range'_concat]
    congr 2
    omega
  rw [hrange]
  simp only [List.map_cons, List.map_append, List.map_singleton]
  rw [interpPoint_zero p q m hmz, interpPoint_last p q m hmz]
  simp only [List.map_nil]
  rw [List.cons_append]

/-- Every consecutive pair in the expansion of one long segment is at
squared distance at most 130. -/
theorem insert_chain_pair (p q : Cell)
    (hp1 : 0 ≤ p.1) (hp2 : 0 ≤ p.2) (hq1 : 0 ≤ q.1) (hq2 : 0 ≤ q.2) :
    List.Chain' (fun a b => sqDist a b ≤ 130)
      (p :: insertedPoints 10 p q ++ [q]) := by
  by_cases h : sqDist p q ≤ 100
  · have h' : sqDist p q ≤ ((10 : ℕ) : ℤ) ^ 2 := by push_cast; exact h
    rw [insertedPoints, if_pos h']
    exact List.chain'_pair.mpr (by linarith)
  · obtain ⟨hm2, hd2⟩ := split_m_bounds p q (by omega)
    rw [insert_list_eq p q h hm2, List.chain'_map]
    refine (List.chain'_range_succ _ (isqrt (sqDist p q).toNat / 10 + 1)).mpr ?_
    intro s hs
    exact interp_gap_sq p q _ s hp1 hp2 hq1 hq2 hm2 hs hd2

theorem splitGo_chain :
    ∀ (rest : List Cell) (p : Cell), 0 ≤ p.1 ∧ 0 ≤ p.2 →
      (∀ c ∈ rest, 0 ≤ c.1 ∧ 0 ≤ c.2) →
      List.Chain' (fun a b => sqDist a b ≤ 130) (p :: splitGo 10 p rest)
  | [], p, _, _ => List.chain'_singleton p
  | q :: rest', p, hp, hrest => by
    have hq := hrest q (List.mem_cons_self q rest')
    have hins := insert_chain_pair p q hp.1 hp.2 hq.1 hq.2
    rw [List.chain'_append] at hins
    obtain ⟨h1, _, h3⟩ := hins
    show List.Chain' (fun a b => sqDist a b ≤ 130)
      ((p :: insertedPoints 10 p q) ++ (q :: splitGo 10 q rest'))
    rw [List.chain'_append]
    refine ⟨h1, splitGo_chain rest' q hq
      (fun c hc => hrest c (List.mem_cons_of_mem _ hc)), ?_⟩
    intro x hx y hy
    simp only [List.head?_cons, Option.mem_def, Option.some.injEq] at hy
    subst hy
    exact h3 x hx q (by simp)

/-- C9 amended: for every input path of cells with nonnegative coordinates
(grid cells), every consecutive pair of `split_long_segments path 10` is at
squared Euclidean distance at most `130`, i.e. at distance `< 10 + √2`.
The claimed bound of exactly `10` fails (`split_exceeds_max_length`)
because the inserted waypoints are truncated to integer coordinates. -/
theorem split_long_segments_pairs_close (path : List Cell)
    (hnn : ∀ c ∈ path, 0 ≤ c.1 ∧ 0 ≤ c.2) :
    List.Chain' (fun a b => sqDist a b ≤ 130)
      (split_long_segments path 10) := by
  match path with
  | [] => exact List.chain'_nil
  | [p] => exact List.chain'_singleton p
  | p :: q :: rest =>
    exact splitGo_chain (q :: rest) p (hnn p (by simp))
      (fun c hc => hnn c (by simp [hc]))

/-- Witness for `split_long_segments_pairs_close` at the path
`[(0,0), (19,5)]` of the counterexample. -/
theorem split_long_segments_pairs_close_witness :
    (∀ c ∈ ([((0 : ℤ), (0 : ℤ)), (19, 5)] : List Cell), 0 ≤ c.1 ∧ 0 ≤ c.2) ∧
      List.Chain' (fun a b => sqDist a b ≤ 130)
        (split_long_segments [((0 : ℤ), (0 : ℤ)), (19, 5)] 10) :=
  ⟨by decide, split_long_segments_pairs_close _ (by decide)⟩

/-- One row of the metrizer's table `path_data` (columns
`x, y, curvature, heading, distance`), the input of
`calculate_speed_limits`. -/
structure PathRow where
  x : ℝ
  y : ℝ
  curvature : ℝ
  heading : ℝ
  distance : ℝ

/-- One weight of the curvature smoothing
(speed_limit_calculator.py lines 29-31): a Gaussian of the arc-length
distance from the window center, zeroed outside the half window. -/
noncomputable def smoothWeight (windowSize d0 dj : ℝ) : ℝ :=
  if windowSize / 2 < |dj - d0| then 0
  else Real.exp (-(dj - d0) ^ 2 / (2 * (windowSize / 4) ^ 2))

/-- The smoothed curvature at window center `d0`
(speed_limit_calculator.py lines 26-35): the normalized weighted average
`Σ κ_j w_j / Σ w_j` (the code divides the weights by their sum and then
sums the products; over the reals this is the same value). -/
noncomputable def smoothedCurvature (rows : List PathRow)
    (windowSize d0 : ℝ) : ℝ :=
  (rows.map fun r => r.curvature * smoothWeight windowSize d0 r.distance).sum /
    (rows.map fun r => smoothWeight windowSize d0 r.distance).sum

/-- `np.clip(v, lo, hi)`: first raise to `lo`, then cap at `hi`. -/
noncomputable def clip (v lo hi : ℝ) : ℝ := min (max v lo) hi

/-- The turning-rate speed cap of one row
(speed_limit_calculator.py lines 38-45): the smoothed curvature converted
to radians per cm (`np.radians` multiplies by `π/180`), the cap
`ω / (|κ| + 1e-6)`, clipped to `[min_speed, max_speed]`. -/
noncomputable def turnSpeedLimit (rows : List PathRow)
    (maxSpeed minSpeed maxTurn windowSize : ℝ) (r : PathRow) : ℝ :=
  clip (maxTurn /
      (|smoothedCurvature rows windowSize r.distance * (Real.pi / 180)| + 1e-6))
    minSpeed maxSpeed

/-- Overwrite the value of the first `(distance, speed)` pair:
`speed_limits[0] = min_speed` (line 49), and, applied to the reversed list,
`speed_limits[-1] = min_speed` (line 56). -/
def setHeadPair (v : ℝ) : List (ℝ × ℝ) → List (ℝ × ℝ)
  | [] => []
  | (d, _) :: t => (d, v) :: t

/-- The forward acceleration pass (speed_limit_calculator.py lines 51-53):
`s[i] = min(s[i], sqrt(s[i-1]² + 2·max_accel·(dist[i] - dist[i-1])))`,
processed left to right with the already-updated previous value
`(pd, pv)`. -/
noncomputable def fwdGo (accel : ℝ) : ℝ → ℝ → List (ℝ × ℝ) → List (ℝ × ℝ)
  | _, _, [] => []
  | pd, pv, (d, v) :: rest =>
    let v' := min v (Real.sqrt (pv ^ 2 + 2 * accel * (d - pd)))
    (d, v') :: fwdGo accel d v' rest

/-- The forward pass over the whole list (the loop starts at index 1, the
head is the previous value of the first step). -/
noncomputable def applyFwd (accel : ℝ) : List (ℝ × ℝ) → List (ℝ × ℝ)
  | [] => []
  | (d0, v0) :: rest => (d0, v0) :: fwdGo accel d0 v0 rest

/-- The backward deceleration pass (speed_limit_calculator.py lines 58-60)
run on the reversed list: `s[i] = min(s[i], sqrt(s[i+1]² +
2·max_decel·(dist[i+1] - dist[i])))`, descending `i`, with the
already-updated successor `(pd, pv)`. -/
noncomputable def bwdGo (decel : ℝ) : ℝ → ℝ → List (ℝ × ℝ) → List (ℝ × ℝ)
  | _, _, [] => []
  | pd, pv, (d, v) :: rest =>
    let v' := min v (Real.sqrt (pv ^ 2 + 2 * decel * (pd - d)))
    (d, v') :: bwdGo decel d v' rest

/-- The backward pass over the reversed list. -/
noncomputable def applyBwd (decel : ℝ) : List (ℝ × ℝ) → List (ℝ × ℝ)
  | [] => []
  | (d0, v0) :: rest => (d0, v0) :: bwdGo decel d0 v0 rest

/-- The two clamp assignments and two passes of `calculate_speed_limits`
(speed_limit_calculator.py lines 47-60), on the list of
`(distance, speed)` pairs: set the first speed to `min_speed`, run the
forward pass, set the last speed to `min_speed` (head of the reversal), run
the backward pass on the reversal, and restore the original order. -/
noncomputable def speedPasses (minSpeed accel decel : ℝ)
    (pairs : List (ℝ × ℝ)) : List (ℝ × ℝ) :=
  (applyBwd decel (setHeadPair minSpeed
    (applyFwd accel (setHeadPair minSpeed pairs)).reverse)).reverse

/-- `calculate_speed_limits(path_data, max_speed, min_speed,
max_turning_speed_rad_s, max_accel, max_decel, window_size_cm)`
(speed_limit_calculator.py lines 4-63): the result `np.column_stack` is
modelled as the list of input rows each paired with its appended
speed-limit value. -/
noncomputable def calculate_speed_limits (rows : List PathRow)
    (maxSpeed minSpeed maxTurn accel decel windowSize : ℝ) :
    List (PathRow × ℝ) :=
  rows.zip ((speedPasses minSpeed accel decel
    (rows.map fun r => (r.distance,
      turnSpeedLimit rows maxSpeed minSpeed maxTurn windowSize r))).map
    Prod.snd)

theorem clip_bounds (v lo hi : ℝ) (h : lo ≤ hi) :
    lo ≤ clip v lo hi ∧ clip v lo hi ≤ hi :=
  ⟨le_min (le_max_right v lo) h, min_le_right _ _⟩

theorem le_sqrt_sq_add (x y : ℝ) (hx : 0 ≤ x) (hy : 0 ≤ y) :
    x ≤ Real.sqrt (x ^ 2 + y) := by
  rw [Real.le_sqrt hx (by positivity)]
  linarith

theorem chain'_fst_cons (R : ℝ → ℝ → Prop) {d v : ℝ} {t : List (ℝ × ℝ)}
    (h : List.Chain' (fun a b : ℝ × ℝ => R a.1 b.1) ((d, v) :: t)) (v' : ℝ) :
    List.Chain' (fun a b : ℝ × ℝ => R a.1 b.1) ((d, v') :: t) := by
  rw [List.chain'_cons'] at h ⊢
  exact ⟨fun b hb => h.1 b hb, h.2⟩

theorem chain'_and {α : Type} {R S : α → α → Prop} :
    ∀ {l : List α}, List.Chain' R l → List.Chain' S l →
      List.Chain' (fun a b => R a b ∧ S a b) l
  | [], _, _ => List.chain'_nil
  | [_], _, _ => List.chain'_singleton _
  | a :: b :: t, hR, hS => by
    rw [List.chain'_cons] at hR hS ⊢
    exact ⟨⟨hR.1, hS.1⟩, chain'_and hR.2 hS.2⟩

theorem getLast?_cons_ne_nil {α : Type} (a : α) {l : List α} (h : l ≠ []) :
    (a :: l).getLast? = l.getLast? := by
  cases l with
  | nil => exact absurd rfl h
  | cons b t => exact List.getLast?_cons_cons

theorem fwdGo_length (accel : ℝ) :
    ∀ (l : List (ℝ × ℝ)) (pd pv : ℝ), (fwdGo accel pd pv l).length = l.length
  | [], _, _ => rfl
  | (d, v) :: rest, pd, pv => by
    rw [fwdGo]
    simp only [List.length_cons]
    rw [fwdGo_length accel rest]

theorem bwdGo_length (decel : ℝ) :
    ∀ (l : List (ℝ × ℝ)) (pd pv : ℝ), (bwdGo decel pd pv l).length = l.length
  | [], _, _ => rfl
  | (d, v) :: rest, pd, pv => by
    rw [bwdGo]
    simp only [List.length_cons]
    rw [bwdGo_length decel rest]

/-- Invariants of the forward pass: values stay in `[minS, maxS]`, the
forward kinematic inequality holds along the output, distances are
unchanged. -/
theorem fwdGo_spec {accel minS maxS : ℝ} (hminS : 0 ≤ minS)
    (haccel : 0 ≤ accel) :
    ∀ (l : List (ℝ × ℝ)) (pd pv : ℝ), minS ≤ pv →
      List.Chain' (fun a b : ℝ × ℝ => a.1 ≤ b.1) ((pd, pv) :: l) →
      (∀ x ∈ l, minS ≤ x.2 ∧ x.2 ≤ maxS) →
      (∀ x ∈ fwdGo accel pd pv l, minS ≤ x.2 ∧ x.2 ≤ maxS) ∧
        List.Chain'
          (fun a b : ℝ × ℝ => b.2 ^ 2 ≤ a.2 ^ 2 + 2 * accel * (b.1 - a.1))
          ((pd, pv) :: fwdGo accel pd pv l) ∧
        (fwdGo accel pd pv l).map Prod.fst = l.map Prod.fst
  | [], pd, pv, _, _, _ => by
    exact ⟨by intro x hx; exact absurd hx (by simp [fwdGo]),
      List.chain'_singleton _, rfl⟩
  | (d, v) :: rest, pd, pv, hpv, hchain, hmem => by
    rw [List.chain'_cons] at hchain
    obtain ⟨hdle, hchain'⟩ := hchain
    obtain ⟨hvlb, hvub⟩ := hmem (d, v) (List.mem_cons_self _ _)
    have harg : 0 ≤ pv ^ 2 + 2 * accel * (d - pd) := by
      have : (0 : ℝ) ≤ 2 * accel * (d - pd) := by
        have : (0 : ℝ) ≤ d - pd := by simpa using sub_nonneg.mpr hdle
        positivity
      positivity
    have hpv0 : 0 ≤ pv := le_trans hminS hpv
    have hsqrt_ge : pv ≤ Real.sqrt (pv ^ 2 + 2 * accel * (d - pd)) := by
      refine le_sqrt_sq_add pv _ hpv0 ?_
      have : (0 : ℝ) ≤ d - pd := by simpa using sub_nonneg.mpr hdle
      positivity
    have hv'lb : minS ≤ min v (Real.sqrt (pv ^ 2 + 2 * accel * (d - pd))) :=
      le_min hvlb (le_trans hpv hsqrt_ge)
    have hv'ub : min v (Real.sqrt (pv ^ 2 + 2 * accel * (d - pd))) ≤ maxS :=
      le_trans (min_le_left _ _) hvub
    have hv'0 : 0 ≤ min v (Real.sqrt (pv ^ 2 + 2 * accel * (d - pd))) :=
      le_trans hminS hv'lb
    have hineq : (min v (Real.sqrt (pv ^ 2 + 2 * accel * (d - pd)))) ^ 2 ≤
        pv ^ 2 + 2 * accel * (d - pd) := by
      calc (min v (Real.sqrt (pv ^ 2 + 2 * accel * (d - pd)))) ^ 2
          ≤ (Real.sqrt (pv ^ 2 + 2 * accel * (d - pd))) ^ 2 :=
            pow_le_pow_left₀ hv'0 (min_le_right _ _) 2
        _ = pv ^ 2 + 2 * accel * (d - pd) := Real.sq_sqrt harg
    have hchain'' : List.Chain' (fun a b : ℝ × ℝ => a.1 ≤ b.1)
        ((d, min v (Real.sqrt (pv ^ 2 + 2 * accel * (d - pd)))) :: rest) :=
      chain'_fst_cons (fun x y => x ≤ y) hchain' _
    obtain ⟨ih1, ih2, ih3⟩ := fwdGo_spec hminS haccel rest d
      (min v (Real.sqrt (pv ^ 2 + 2 * accel * (d - pd)))) hv'lb hchain''
      (fun x hx => hmem x (List.mem_cons_of_mem _ hx))
    refine ⟨?_, ?_, ?_⟩
    · intro x hx
      rw [fwdGo] at hx
      rcases List.mem_cons.mp hx with rfl | hx
      · exact ⟨hv'lb, hv'ub⟩
      · exact ih1 x hx
    · rw [fwdGo, List.chain'_cons]
      exact ⟨by simpa using hineq, ih2⟩
    · rw [fwdGo]
      simp only [List.map_cons]
      rw [ih3]

/-- Invariants of the backward pass, run on the reversed list: values stay
in `[minS, maxS]` and only decrease, the backward kinematic inequality is
established, the forward inequality (already holding for the original
values `pv0 ≥ pv`) is preserved, distances are unchanged. -/
theorem bwdGo_spec {accel decel minS maxS : ℝ} (hminS : 0 ≤ minS)
    (haccel : 0 ≤ accel) (hdecel : 0 ≤ decel) :
    ∀ (l : List (ℝ × ℝ)) (pd pv pv0 : ℝ), minS ≤ pv → pv ≤ pv0 →
      (∀ x ∈ l, minS ≤ x.2 ∧ x.2 ≤ maxS) →
      List.Chain' (fun a b : ℝ × ℝ => b.1 ≤ a.1) ((pd, pv) :: l) →
      List.Chain'
        (fun a b : ℝ × ℝ => a.2 ^ 2 ≤ b.2 ^ 2 + 2 * accel * (a.1 - b.1))
        ((pd, pv0) :: l) →
      (∀ x ∈ bwdGo decel pd pv l, minS ≤ x.2 ∧ x.2 ≤ maxS) ∧
        List.Chain'
          (fun a b : ℝ × ℝ => b.2 ^ 2 ≤ a.2 ^ 2 + 2 * decel * (a.1 - b.1))
          ((pd, pv) :: bwdGo decel pd pv l) ∧
        List.Chain'
          (fun a b : ℝ × ℝ => a.2 ^ 2 ≤ b.2 ^ 2 + 2 * accel * (a.1 - b.1))
          ((pd, pv) :: bwdGo decel pd pv l) ∧
        (bwdGo decel pd pv l).map Prod.fst = l.map Prod.fst
  | [], pd, pv, pv0, _, _, _, _, _ => by
    exact ⟨by intro x hx; exact absurd hx (by simp [bwdGo]),
      List.chain'_singleton _, List.chain'_singleton _, rfl⟩
  | (d, v) :: rest, pd, pv, pv0, hpv, hpv0, hmem, hdesc, hfwd => by
    rw [List.chain'_cons] at hdesc hfwd
    obtain ⟨hdge, hdesc'⟩ := hdesc
    obtain ⟨hfwd1, hfwd'⟩ := hfwd
    obtain ⟨hvlb, hvub⟩ := hmem (d, v) (List.mem_cons_self _ _)
    have hpvnn : 0 ≤ pv := le_trans hminS hpv
    have hdelta : (0 : ℝ) ≤ pd - d := by simpa using sub_nonneg.mpr hdge
    have harg : 0 ≤ pv ^ 2 + 2 * decel * (pd - d) := by positivity
    have hsqrt_ge : pv ≤ Real.sqrt (pv ^ 2 + 2 * decel * (pd - d)) :=
      le_sqrt_sq_add pv _ hpvnn (by positivity)
    have hv'lb : minS ≤ min v (Real.sqrt (pv ^ 2 + 2 * decel * (pd - d))) :=
      le_min hvlb (le_trans hpv hsqrt_ge)
    have hv'ub : min v (Real.sqrt (pv ^ 2 + 2 * decel * (pd - d))) ≤ maxS :=
      le_trans (min_le_left _ _) hvub
    have hv'0 : 0 ≤ min v (Real.sqrt (pv ^ 2 + 2 * decel * (pd - d))) :=
      le_trans hminS hv'lb
    have hbwd1 : (min v (Real.sqrt (pv ^ 2 + 2 * decel * (pd - d)))) ^ 2 ≤
        pv ^ 2 + 2 * decel * (pd - d) := by
      calc (min v (Real.sqrt (pv ^ 2 + 2 * decel * (pd - d)))) ^ 2
          ≤ (Real.sqrt (pv ^ 2 + 2 * decel * (pd - d))) ^ 2 :=
            pow_le_pow_left₀ hv'0 (min_le_right _ _) 2
        _ = pv ^ 2 + 2 * decel * (pd - d) := Real.sq_sqrt harg
    have hfwdpair : pv ^ 2 ≤
        (min v (Real.sqrt (pv ^ 2 + 2 * decel * (pd - d)))) ^ 2 +
          2 * accel * (pd - d) := by
      rcases min_cases v (Real.sqrt (pv ^ 2 + 2 * decel * (pd - d))) with
        ⟨heq, _⟩ | ⟨heq, _⟩
      · rw [heq]
        have hpvsq : pv ^ 2 ≤ pv0 ^ 2 := pow_le_pow_left₀ hpvnn hpv0 2
        have := hfwd1
        simp only at this
        linarith
      · rw [heq, Real.sq_sqrt harg]
        have h2a : (0 : ℝ) ≤ 2 * accel * (pd - d) := by positivity
        have h2d : (0 : ℝ) ≤ 2 * decel * (pd - d) := by positivity
        linarith
    obtain ⟨ih1, ih2, ih3, ih4⟩ := bwdGo_spec hminS haccel hdecel rest d
      (min v (Real.sqrt (pv ^ 2 + 2 * decel * (pd - d)))) v hv'lb
      (min_le_left _ _) (fun x hx => hmem x (List.mem_cons_of_mem _ hx))
      (chain'_fst_cons (fun x y => y ≤ x) hdesc' _) hfwd'
    refine ⟨?_, ?_, ?_, ?_⟩
    · intro x hx
      rw [bwdGo] at hx
      rcases List.mem_cons.mp hx with rfl | hx
      · exact ⟨hv'lb, hv'ub⟩
      · exact ih1 x hx
    · rw [bwdGo, List.chain'_cons]
      exact ⟨by simpa using hbwd1, ih2⟩
    · rw [bwdGo, List.chain'_cons]
      exact ⟨by simpa using hfwdpair, ih3⟩
    · rw [bwdGo]
      simp only [List.map_cons]
      rw [ih4]

/-- If the last pair of the reversed list (i.e. the first sample) already
carries the value `minS`, the backward pass keeps it at `minS`. -/
theorem bwdGo_getLast {decel minS : ℝ} (hminS : 0 ≤ minS)
    (hdecel : 0 ≤ decel) :
    ∀ (l : List (ℝ × ℝ)) (pd pv : ℝ), minS ≤ pv →
      (∀ x ∈ l, minS ≤ x.2) →
      List.Chain' (fun a b : ℝ × ℝ => b.1 ≤ a.1) ((pd, pv) :: l) →
      ∀ dl, l.getLast? = some (dl, minS) →
        (bwdGo decel pd pv l).getLast? = some (dl, minS)
  | [], _, _, _, _, _, _, hlast => by simp at hlast
  | (d, v) :: rest, pd, pv, hpv, hmem, hdesc, dl, hlast => by
    rw [List.chain'_cons] at hdesc
    obtain ⟨hdge, hdesc'⟩ := hdesc
    have hpvnn : 0 ≤ pv := le_trans hminS hpv
    have hdelta : (0 : ℝ) ≤ pd - d := by simpa using sub_nonneg.mpr hdge
    have hsqrt_ge : pv ≤ Real.sqrt (pv ^ 2 + 2 * decel * (pd - d)) :=
      le_sqrt_sq_add pv _ hpvnn (by positivity)
    cases rest with
    | nil =>
      simp only [List.getLast?_singleton, Option.some.injEq, Prod.mk.injEq]
        at hlast
      obtain ⟨rfl, hv⟩ := hlast
      have hmin : min v (Real.sqrt (pv ^ 2 + 2 * decel * (pd - d))) =
          minS := by
        rw [hv]
        exact min_eq_left (le_trans hpv hsqrt_ge)
      simp [bwdGo, hmin]
    | cons r rest' =>
      rw [List.getLast?_cons_cons] at hlast
      have hvlb : minS ≤ v := (hmem (d, v) (List.mem_cons_self _ _))
      have hv'lb : minS ≤ min v (Real.sqrt (pv ^ 2 + 2 * decel * (pd - d))) :=
        le_min hvlb (le_trans hpv hsqrt_ge)
      have hrec := bwdGo_getLast hminS hdecel (r :: rest') d
        (min v (Real.sqrt (pv ^ 2 + 2 * decel * (pd - d)))) hv'lb
        (fun x hx => hmem x (List.mem_cons_of_mem _ hx))
        (chain'_fst_cons (fun x y => y ≤ x) hdesc' _) dl hlast
      rw [bwdGo]
      rw [getLast?_cons_ne_nil _ ?_]
      · exact hrec
      · intro hcon
        have := bwdGo_length decel (r :: rest') d
          (min v (Real.sqrt (pv ^ 2 + 2 * decel * (pd - d))))
        rw [hcon] at this
        simp at this

/-- Distances of two pair lists agree, so the nondecreasing-distance chain
transfers from one to the other. -/
theorem chain'_fst_transfer {l l' : List (ℝ × ℝ)}
    (h : l.map Prod.fst = l'.map Prod.fst)
    (hc : List.Chain' (fun a b : ℝ × ℝ => a.1 ≤ b.1) l) :
    List.Chain' (fun a b : ℝ × ℝ => a.1 ≤ b.1) l' := by
  have h1 := (@List.chain'_map ℝ (ℝ × ℝ) (fun a b : ℝ => a ≤ b)
    Prod.fst l).mpr hc
  rw [h] at h1
  exact (@List.chain'_map ℝ (ℝ × ℝ) (fun a b : ℝ => a ≤ b) Prod.fst l').mp h1

/-- Master invariants of the clamp-and-pass pipeline of
`calculate_speed_limits` (speed_limit_calculator.py lines 47-60): if the
distances are nondecreasing and the input speeds lie in `[minS, maxS]`
with `0 ≤ minS ≤ maxS` and nonnegative acceleration limits, then every
output speed lies in `[minS, maxS]`, the first and last output speeds are
exactly `minS`, consecutive samples satisfy both kinematic inequalities,
and the distance column is unchanged. -/
theorem speedPasses_spec {minS maxS accel decel : ℝ} (hminS : 0 ≤ minS)
    (hms : minS ≤ maxS) (haccel : 0 ≤ accel) (hdecel : 0 ≤ decel)
    (pairs : List (ℝ × ℝ)) (hne : pairs ≠ [])
    (hchain : List.Chain' (fun a b : ℝ × ℝ => a.1 ≤ b.1) pairs)
    (hmem : ∀ x ∈ pairs, minS ≤ x.2 ∧ x.2 ≤ maxS) :
    (∀ x ∈ speedPasses minS accel decel pairs, minS ≤ x.2 ∧ x.2 ≤ maxS) ∧
      (speedPasses minS accel decel pairs).head?.map Prod.snd =
        some minS ∧
      (speedPasses minS accel decel pairs).getLast?.map Prod.snd =
        some minS ∧
      List.Chain' (fun a b : ℝ × ℝ =>
          b.2 ^ 2 ≤ a.2 ^ 2 + 2 * accel * (b.1 - a.1) ∧
            a.2 ^ 2 ≤ b.2 ^ 2 + 2 * decel * (b.1 - a.1))
        (speedPasses minS accel decel pairs) ∧
      (speedPasses minS accel decel pairs).map Prod.fst =
        pairs.map Prod.fst := by
  obtain ⟨⟨d0, v0⟩, rest, rfl⟩ := List.exists_cons_of_ne_nil hne
  have hchain1 : List.Chain' (fun a b : ℝ × ℝ => a.1 ≤ b.1)
      ((d0, minS) :: rest) := chain'_fst_cons (fun x y => x ≤ y) hchain _
  have hmemrest : ∀ x ∈ rest, minS ≤ x.2 ∧ x.2 ≤ maxS :=
    fun x hx => hmem x (List.mem_cons_of_mem _ hx)
  obtain ⟨hF1, hF2, hF3⟩ :=
    fwdGo_spec hminS haccel rest d0 minS le_rfl hchain1 hmemrest
  have hmem2 : ∀ x ∈ (d0, minS) :: fwdGo accel d0 minS rest,
      minS ≤ x.2 ∧ x.2 ≤ maxS := by
    intro x hx
    rcases List.mem_cons.mp hx with rfl | hx
    · exact ⟨le_rfl, hms⟩
    · exact hF1 x hx
  have hchain2 : List.Chain' (fun a b : ℝ × ℝ => a.1 ≤ b.1)
      ((d0, minS) :: fwdGo accel d0 minS rest) := by
    refine chain'_fst_transfer ?_ hchain1
    simp [hF3]
  cases hq : ((d0, minS) :: fwdGo accel d0 minS rest).reverse with
  | nil => simp at hq
  | cons hd tl =>
    obtain ⟨dL, vL⟩ := hd
    have hdescq : List.Chain' (fun a b : ℝ × ℝ => b.1 ≤ a.1)
        ((dL, vL) :: tl) := by
      rw [← hq]
      exact List.chain'_reverse.mpr hchain2
    have hfwdq : List.Chain'
        (fun a b : ℝ × ℝ => a.2 ^ 2 ≤ b.2 ^ 2 + 2 * accel * (a.1 - b.1))
        ((dL, vL) :: tl) := by
      rw [← hq]
      exact List.chain'_reverse.mpr hF2
    have hmemq : ∀ x ∈ (dL, vL) :: tl, minS ≤ x.2 ∧ x.2 ≤ maxS := by
      intro x hx
      rw [← hq, List.mem_reverse] at hx
      exact hmem2 x hx
    have hlastq : ((dL, vL) :: tl).getLast? = some (d0, minS) := by
      rw [← hq, List.getLast?_reverse]
      rfl
    have hvL : minS ≤ vL := (hmemq (dL, vL) (List.mem_cons_self _ _)).1
    have hmemtl : ∀ x ∈ tl, minS ≤ x.2 ∧ x.2 ≤ maxS :=
      fun x hx => hmemq x (List.mem_cons_of_mem _ hx)
    have hdesc3 : List.Chain' (fun a b : ℝ × ℝ => b.1 ≤ a.1)
        ((dL, minS) :: tl) := chain'_fst_cons (fun x y => y ≤ x) hdescq _
    obtain ⟨hB1, hB2, hB3, hB4⟩ := bwdGo_spec hminS haccel hdecel tl dL
      minS vL le_rfl hvL hmemtl hdesc3 hfwdq
    have hlast4 : ((dL, minS) :: bwdGo decel dL minS tl).getLast? =
        some (d0, minS) := by
      cases tl with
      | nil =>
        simp only [List.getLast?_singleton, Option.some.injEq,
          Prod.mk.injEq] at hlastq
        simp [bwdGo, hlastq.1]
      | cons t ts =>
        have htl : (t :: ts).getLast? = some (d0, minS) :=
          ((getLast?_cons_ne_nil _ (by simp)).symm).trans hlastq
        have hbl := bwdGo_getLast hminS hdecel (t :: ts) dL minS le_rfl
          (fun x hx => (hmemtl x hx).1) hdesc3 d0 htl
        rw [getLast?_cons_ne_nil _ ?_]
        · exact hbl
        · intro hcon
          have := bwdGo_length decel (t :: ts) dL minS
          rw [hcon] at this
          simp at this
    have hsp : speedPasses minS accel decel ((d0, v0) :: rest) =
        ((dL, minS) :: bwdGo decel dL minS tl).reverse := by
      show (applyBwd decel (setHeadPair minS
          ((d0, minS) :: fwdGo accel d0 minS rest).reverse)).reverse = _
      rw [hq]
      rfl
    refine ⟨?_, ?_, ?_, ?_, ?_⟩
    · intro x hx
      rw [hsp, List.mem_reverse] at hx
      rcases List.mem_cons.mp hx with rfl | hx
      · exact ⟨le_rfl, hms⟩
      · exact hB1 x hx
    · rw [hsp, List.head?_reverse, hlast4]
      rfl
    · rw [hsp, List.getLast?_reverse]
      rfl
    · rw [hsp, List.chain'_reverse]
      show List.Chain' (fun a b : ℝ × ℝ =>
          a.2 ^ 2 ≤ b.2 ^ 2 + 2 * accel * (a.1 - b.1) ∧
            b.2 ^ 2 ≤ a.2 ^ 2 + 2 * decel * (a.1 - b.1)) _
      exact chain'_and hB3 hB2
    · rw [hsp, List.map_reverse]
      have h1 : ((dL, minS) :: bwdGo decel dL minS tl).map Prod.fst =
          ((dL, vL) :: tl).map Prod.fst := by
        simp [hB4]
      rw [h1, ← hq, List.map_reverse, List.reverse_reverse]
      simp [hF3]

/-- The head of a zip of equal-length lists carries the head of the second
list in its second component. -/
theorem zip_head?_snd {α β : Type} (l1 : List α) (l2 : List β)
    (h : l1.length = l2.length) :
    ((l1.zip l2).head?).map Prod.snd = l2.head? := by
  cases l1 <;> cases l2 <;> simp_all

/-- The last element of a zip of equal-length lists carries the last
element of the second list in its second component. -/
theorem zip_getLast?_snd {α β : Type} :
    ∀ (l1 : List α) (l2 : List β), l1.length = l2.length →
      ((l1.zip l2).getLast?).map Prod.snd = l2.getLast?
  | [], [], _ => rfl
  | [], _ :: _, h => by simp at h
  | _ :: _, [], h => by simp at h
  | a :: t1, b :: t2, h => by
    cases t1 with
    | nil =>
      cases t2 with
      | nil => rfl
      | cons c t3 => simp at h
    | cons c t3 =>
      cases t2 with
      | nil => simp at h
      | cons e t4 =>
        have h' : (c :: t3).length = (e :: t4).length := by
          simpa using h
        have ih := zip_getLast?_snd (c :: t3) (e :: t4) h'
        rw [List.zip_cons_cons]
        rw [getLast?_cons_ne_nil _ (by simp : (c :: t3).zip (e :: t4) ≠ [])]
        rw [ih]
        exact (List.getLast?_cons_cons).symm

/-- The `speedPasses` invariants instantiated at the `(distance,
turn-speed-limit)` pairs that `calculate_speed_limits` builds from its
input rows. -/
theorem speedPasses_rows_spec (rows : List PathRow)
    (maxSpeed minSpeed maxTurn accel decel windowSize : ℝ)
    (hne : rows ≠ [])
    (hmono : List.Chain' (fun a b : PathRow => a.distance ≤ b.distance)
      rows)
    (h0 : 0 ≤ minSpeed) (hms : minSpeed ≤ maxSpeed)
    (ha : 0 ≤ accel) (hd : 0 ≤ decel) :
    (∀ x ∈ speedPasses minSpeed accel decel (rows.map fun r =>
        (r.distance,
          turnSpeedLimit rows maxSpeed minSpeed maxTurn windowSize r)),
      minSpeed ≤ x.2 ∧ x.2 ≤ maxSpeed) ∧
      (speedPasses minSpeed accel decel (rows.map fun r =>
          (r.distance,
            turnSpeedLimit rows maxSpeed minSpeed maxTurn windowSize
              r))).head?.map Prod.snd = some minSpeed ∧
      (speedPasses minSpeed accel decel (rows.map fun r =>
          (r.distance,
            turnSpeedLimit rows maxSpeed minSpeed maxTurn windowSize
              r))).getLast?.map Prod.snd = some minSpeed ∧
      List.Chain' (fun a b : ℝ × ℝ =>
          b.2 ^ 2 ≤ a.2 ^ 2 + 2 * accel * (b.1 - a.1) ∧
            a.2 ^ 2 ≤ b.2 ^ 2 + 2 * decel * (b.1 - a.1))
        (speedPasses minSpeed accel decel (rows.map fun r =>
          (r.distance,
            turnSpeedLimit rows maxSpeed minSpeed maxTurn windowSize
              r))) ∧
      (speedPasses minSpeed accel decel (rows.map fun r =>
          (r.distance,
            turnSpeedLimit rows maxSpeed minSpeed maxTurn windowSize
              r))).map Prod.fst = (rows.map fun r =>
        (r.distance,
          turnSpeedLimit rows maxSpeed minSpeed maxTurn windowSize
            r)).map Prod.fst := by
  have hnep : (rows.map fun r => (r.distance,
      turnSpeedLimit rows maxSpeed minSpeed maxTurn windowSize r)) ≠
        [] := by
    simpa using hne
  have hchainp : List.Chain' (fun a b : ℝ × ℝ => a.1 ≤ b.1)
      (rows.map fun r => (r.distance,
        turnSpeedLimit rows maxSpeed minSpeed maxTurn windowSize r)) := by
    exact (@List.chain'_map (ℝ × ℝ) PathRow
      (fun a b : ℝ × ℝ => a.1 ≤ b.1)
      (fun r => (r.distance,
        turnSpeedLimit rows maxSpeed minSpeed maxTurn windowSize r))
      rows).mpr hmono
  have hmemp : ∀ x ∈ (rows.map fun r => (r.distance,
      turnSpeedLimit rows maxSpeed minSpeed maxTurn windowSize r)),
      minSpeed ≤ x.2 ∧ x.2 ≤ maxSpeed := by
    intro x hx
    rw [List.mem_map] at hx
    obtain ⟨r, _, rfl⟩ := hx
    exact clip_bounds _ _ _ hms
  exact speedPasses_spec h0 hms ha hd _ hnep hchainp hmemp

/-- C5: for every input table whose distance column is nondecreasing, and
parameters with `0 ≤ min_speed ≤ max_speed`, `max_accel ≥ 0`,
`max_decel ≥ 0`, every entry of the speed-limit column appended by
`calculate_speed_limits` lies in `[min_speed, max_speed]`, and the first
and last entries both equal `min_speed`. -/
theorem calculate_speed_limits_bounds (rows : List PathRow)
    (maxSpeed minSpeed maxTurn accel decel windowSize : ℝ)
    (hne : rows ≠ [])
    (hmono : List.Chain' (fun a b : PathRow => a.distance ≤ b.distance)
      rows)
    (h0 : 0 ≤ minSpeed) (hms : minSpeed ≤ maxSpeed)
    (ha : 0 ≤ accel) (hd : 0 ≤ decel) :
    (∀ x ∈ calculate_speed_limits rows maxSpeed minSpeed maxTurn accel
        decel windowSize, minSpeed ≤ x.2 ∧ x.2 ≤ maxSpeed) ∧
      (calculate_speed_limits rows maxSpeed minSpeed maxTurn accel decel
        windowSize).head?.map Prod.snd = some minSpeed ∧
      (calculate_speed_limits rows maxSpeed minSpeed maxTurn accel decel
        windowSize).getLast?.map Prod.snd = some minSpeed := by
  obtain ⟨hb, hh, hl, -, hf⟩ := speedPasses_rows_spec rows maxSpeed
    minSpeed maxTurn accel decel windowSize hne hmono h0 hms ha hd
  have hlen : rows.length = ((speedPasses minSpeed accel decel
      (rows.map fun r => (r.distance, turnSpeedLimit rows maxSpeed
        minSpeed maxTurn windowSize r))).map Prod.snd).length := by
    have h1 := congrArg List.length hf
    simp only [List.length_map] at h1 ⊢
    exact h1.symm
  refine ⟨?_, ?_, ?_⟩
  · intro x hx
    simp only [calculate_speed_limits] at hx
    obtain ⟨r, s⟩ := x
    have h2 := (List.of_mem_zip hx).2
    rw [List.mem_map] at h2
    obtain ⟨y, hy, hys⟩ := h2
    rw [← hys]
    exact hb y hy
  · simp only [calculate_speed_limits]
    rw [zip_head?_snd _ _ hlen, List.head?_map]
    exact hh
  · simp only [calculate_speed_limits]
    rw [zip_getLast?_snd _ _ hlen, List.getLast?_map]
    exact hl

/-- The C5 property evaluated on the one-row table with all fields zero
and `max_speed = 2`, `min_speed = 1`, zero turning rate and accelerations:
the hypotheses hold and the single appended speed is `1`. -/
theorem calculate_speed_limits_bounds_witness :
    (∀ x ∈ calculate_speed_limits [(⟨0, 0, 0, 0, 0⟩ : PathRow)] 2 1 0 0 0
        50, 1 ≤ x.2 ∧ x.2 ≤ 2) ∧
      (calculate_speed_limits [(⟨0, 0, 0, 0, 0⟩ : PathRow)] 2 1 0 0 0
        50).head?.map Prod.snd = some 1 ∧
      (calculate_speed_limits [(⟨0, 0, 0, 0, 0⟩ : PathRow)] 2 1 0 0 0
        50).getLast?.map Prod.snd = some 1 :=
  calculate_speed_limits_bounds [⟨0, 0, 0, 0, 0⟩] 2 1 0 0 0 50
    (List.cons_ne_nil _ _) (List.chain'_singleton _) (by norm_num)
    (by norm_num) le_rfl le_rfl

/-- C6: for every input table whose distance column is nondecreasing, and
parameters with `0 ≤ min_speed ≤ max_speed`, `max_accel ≥ 0`,
`max_decel ≥ 0`, consecutive samples of the profile returned by
`calculate_speed_limits` satisfy both `v[i+1]² ≤ v[i]² + 2·max_accel·Δs`
and `v[i]² ≤ v[i+1]² + 2·max_decel·Δs` with
`Δs = distance[i+1] − distance[i]`. -/
theorem calculate_speed_limits_kinematic (rows : List PathRow)
    (maxSpeed minSpeed maxTurn accel decel windowSize : ℝ)
    (hne : rows ≠ [])
    (hmono : List.Chain' (fun a b : PathRow => a.distance ≤ b.distance)
      rows)
    (h0 : 0 ≤ minSpeed) (hms : minSpeed ≤ maxSpeed)
    (ha : 0 ≤ accel) (hd : 0 ≤ decel) :
    List.Chain' (fun a b : PathRow × ℝ =>
        b.2 ^ 2 ≤ a.2 ^ 2 + 2 * accel * (b.1.distance - a.1.distance) ∧
          a.2 ^ 2 ≤ b.2 ^ 2 + 2 * decel * (b.1.distance - a.1.distance))
      (calculate_speed_limits rows maxSpeed minSpeed maxTurn accel decel
        windowSize) := by
  obtain ⟨-, -, -, hk, hf⟩ := speedPasses_rows_spec rows maxSpeed minSpeed
    maxTurn accel decel windowSize hne hmono h0 hms ha hd
  simp only [calculate_speed_limits]
  have hout : (List.map (Prod.map PathRow.distance id)
      (rows.zip ((speedPasses minSpeed accel decel (rows.map fun r =>
        (r.distance, turnSpeedLimit rows maxSpeed minSpeed maxTurn
          windowSize r))).map Prod.snd))) =
      speedPasses minSpeed accel decel (rows.map fun r =>
        (r.distance, turnSpeedLimit rows maxSpeed minSpeed maxTurn
          windowSize r)) := by
    rw [← List.zip_map, List.map_id]
    have h1 : rows.map PathRow.distance = (speedPasses minSpeed accel
        decel (rows.map fun r => (r.distance, turnSpeedLimit rows maxSpeed
          minSpeed maxTurn windowSize r))).map Prod.fst := by
      rw [hf, List.map_map]
      rfl
    rw [h1, ← List.unzip_fst, ← List.unzip_snd, List.zip_unzip]
  have hchain_out := (@List.chain'_map (ℝ × ℝ) (PathRow × ℝ)
      (fun a b : ℝ × ℝ =>
        b.2 ^ 2 ≤ a.2 ^ 2 + 2 * accel * (b.1 - a.1) ∧
          a.2 ^ 2 ≤ b.2 ^ 2 + 2 * decel * (b.1 - a.1))
      (Prod.map PathRow.distance id)
      (rows.zip ((speedPasses minSpeed accel decel (rows.map fun r =>
        (r.distance, turnSpeedLimit rows maxSpeed minSpeed maxTurn
          windowSize r))).map Prod.snd))).mp (by rw [hout]; exact hk)
  refine List.Chain'.imp ?_ hchain_out
  intro a b h
  obtain ⟨a1, a2⟩ := a
  obtain ⟨b1, b2⟩ := b
  simpa [Prod.map] using h

/-- The C6 property evaluated on the one-row table with all fields zero
and `max_speed = 2`, `min_speed = 1`, zero turning rate and accelerations:
the hypotheses hold and the kinematic chain on the singleton output is
established. -/
theorem calculate_speed_limits_kinematic_witness :
    List.Chain' (fun a b : PathRow × ℝ =>
        b.2 ^ 2 ≤ a.2 ^ 2 + 2 * 0 * (b.1.distance - a.1.distance) ∧
          a.2 ^ 2 ≤ b.2 ^ 2 + 2 * 0 * (b.1.distance - a.1.distance))
      (calculate_speed_limits [(⟨0, 0, 0, 0, 0⟩ : PathRow)] 2 1 0 0 0
        50) :=
  calculate_speed_limits_kinematic [⟨0, 0, 0, 0, 0⟩] 2 1 0 0 0 50
    (List.cons_ne_nil _ _) (List.chain'_singleton _) (by norm_num)
    (by norm_num) le_rfl le_rfl

/-- `calculate_distance(p1, p2)` (path_processor.py lines 57-58). -/
noncomputable def calculate_distance (p1 p2 : ℝ × ℝ) : ℝ :=
  Real.sqrt ((p2.1 - p1.1) ^ 2 + (p2.2 - p1.2) ^ 2)

/-- One segment dictionary built by `process_path` (path_processor.py
lines 69-74); the Python keys `start` and `end` are rendered `seg_start`
and `seg_end` (`end` is reserved). -/
structure Segment where
  seg_start : ℝ × ℝ
  seg_end : ℝ × ℝ
  length : ℝ
  distance_from_start : ℝ

/-- The loop of `process_path` (path_processor.py lines 64-76): one
segment per consecutive waypoint pair, carrying the cumulative distance
of its start point. -/
noncomputable def processGo : ℝ → List (ℝ × ℝ) → List Segment
  | _, [] => []
  | _, [_] => []
  | cum, p :: q :: rest =>
    { seg_start := p, seg_end := q, length := calculate_distance p q,
      distance_from_start := cum } ::
      processGo (cum + calculate_distance p q) (q :: rest)

/-- `process_path(waypoints)` (path_processor.py lines 60-78): the loop
runs over the `len(waypoints) - 1` consecutive pairs, starting with
cumulative distance `0.0`. -/
noncomputable def process_path (waypoints : List (ℝ × ℝ)) :
    List Segment :=
  processGo 0 waypoints

/-- The mutable state of a `PathWalker` (path_processor.py lines 10-15):
current segment index, distance traveled, current position; the segment
list itself is passed to `move` separately. -/
structure PathWalker where
  idx : ℕ
  traveled : ℝ
  pos : ℝ × ℝ

/-- `PathWalker.__init__` (path_processor.py lines 11-15): index 0, no
distance traveled, position at the first segment's start, or `(0, 0)`
when the segment list is empty. -/
noncomputable def PathWalker.init (segments : List Segment) :
    PathWalker :=
  { idx := 0, traveled := 0,
    pos := match segments.head? with
      | none => (0, 0)
      | some s => s.seg_start }

/-- `PathWalker.move` (path_processor.py lines 25-49). Each iteration of
the `while` loop either terminates the loop (the guard fails, or
`remaining ≤ segment_remaining` ends it with `remaining = 0`) or
increments `current_segment_idx`, so the loop runs at most
`segments.length + 1` times; callers pass that bound as fuel and the
fuel-out branch is unreachable. -/
noncomputable def PathWalker.move (segments : List Segment) :
    ℕ → ℝ → PathWalker → PathWalker
  | 0, _, w => w
  | fuel + 1, remaining, w =>
    if 0 < remaining ∧ w.idx < segments.length then
      let segment := segments.getD w.idx ⟨(0, 0), (0, 0), 0, 0⟩
      let segment_remaining := segment.length -
        (if 0 < w.idx then w.traveled - segment.distance_from_start
          else w.traveled)
      if remaining ≤ segment_remaining then
        let ratio := (w.traveled - segment.distance_from_start +
          remaining) / segment.length
        { idx := w.idx,
          traveled := w.traveled + remaining,
          pos := (segment.seg_start.1 +
              (segment.seg_end.1 - segment.seg_start.1) * ratio,
            segment.seg_start.2 +
              (segment.seg_end.2 - segment.seg_start.2) * ratio) }
      else
        PathWalker.move segments fuel (remaining - segment_remaining)
          { idx := w.idx + 1, traveled := w.traveled + segment_remaining,
            pos := segment.seg_end }
    else w

/-- The `while` loop of `smooth_path` (path_processor.py lines 89-100):
while the lead walker has not covered the total length, record the
midpoint of the two walker positions and advance both walkers by 1 cm.
The lead's traveled distance grows by 1 per iteration until it reaches
the total, so `⌈total⌉ + 1` fuel is enough; the fuel-out branch returns
the samples collected so far. -/
noncomputable def smoothGo (segments : List Segment) (total : ℝ) :
    ℕ → PathWalker → PathWalker → List (ℝ × ℝ) → List (ℝ × ℝ)
  | 0, _, _, acc => acc.reverse
  | fuel + 1, lead, trail, acc =>
    if lead.traveled < total then
      smoothGo segments total fuel
        (PathWalker.move segments (segments.length + 1) 1 lead)
        (PathWalker.move segments (segments.length + 1) 1 trail)
        (((lead.pos.1 + trail.pos.1) / 2,
          (lead.pos.2 + trail.pos.2) / 2) :: acc)
    else acc.reverse

/-- `smooth_path(segments, distance)` (path_processor.py lines 80-102):
two walkers are created and the lead one moved ahead by `distance`; the
loop bound `segments[-1]['distance_from_start'] + segments[-1]['length']`
indexes into the segment list, so on an empty list the call raises
`IndexError` — modelled as the `none` result. -/
noncomputable def smooth_path (segments : List Segment) (distance : ℝ) :
    Option (List (ℝ × ℝ)) :=
  let lead := PathWalker.move segments (segments.length + 1) distance
    (PathWalker.init segments)
  let trail := PathWalker.init segments
  match segments.getLast? with
  | none => none
  | some lastSeg =>
    let total := lastSeg.distance_from_start + lastSeg.length
    some (smoothGo segments total (⌈total⌉₊ + 1) lead trail [])

/-- C7: the spec's DegeneratePath case says a single-point path never
fails and yields a single-sample trajectory; in the code, `process_path`
on one waypoint builds no segments (its loop runs `len(waypoints) − 1 =
0` times), and `smooth_path` then evaluates `segments[-1]` on the empty
list and raises `IndexError` (the `none` result here), for every single
waypoint `w`. -/
theorem single_waypoint_metrizer_fails (w : ℝ × ℝ) :
    process_path [w] = [] ∧ smooth_path (process_path [w]) 50 = none :=
  ⟨rfl, rfl⟩
